import Mathlib

/-!
Shallow embedding of the record classifier/aggregator in
`src/python/complex_code.py` (class `ComplexProcessor` and the
`process_complex_data` entry point), together with theorems settling the
spec claims about it.

Modelling conventions:
* Python numbers are split into `int` (ℤ) and `float`; floats are exact
  rationals extended with the signed infinities and nan (IEEE rounding is
  not modelled; the spec states its numeric properties over real
  semantics).
* Python dicts are insertion-ordered association lists; records are
  association lists with string keys, matching the declared
  `Dict[str, Any]` record type.
* Exceptions are modelled with `Except PyErr`; a raised exception aborts
  the run exactly as in Python.
-/

namespace ComplexCode

/-- Python float values: exact rationals plus signed infinity and nan.
The `Bool` of `inf` is the sign: `true` is `+inf`, `false` is `-inf`. -/
inductive PyFloat where
  | finite : ℚ → PyFloat
  | inf : Bool → PyFloat
  | nan : PyFloat
deriving DecidableEq

/-- Dynamically typed Python values occurring in processed records. -/
inductive PyVal where
  | int : ℤ → PyVal
  | float : PyFloat → PyVal
  | bool : Bool → PyVal
  | str : String → PyVal
  | list : List PyVal → PyVal
  | dict : List (PyVal × PyVal) → PyVal
  | set : List PyVal → PyVal
  | none : PyVal

/-- A record: a Python `Dict[str, Any]` as an insertion-ordered
association list. -/
abbrev Record := List (String × PyVal)

/-- Python exceptions raised by the embedded code paths. -/
inductive PyErr where
  | attributeError
  | typeError
  | valueError
  | overflowError
  | runtimeError
  | recursionError
deriving DecidableEq

/-- Models `int(b)` for a Python bool. -/
def bint (b : Bool) : ℤ := if b then 1 else 0

/-- Models `s.lower()` (ASCII; maps every character). -/
def strLower (s : String) : String := ⟨s.data.map Char.toLower⟩

/-- Models `s.upper()` (ASCII; maps every character). -/
def strUpper (s : String) : String := ⟨s.data.map Char.toUpper⟩

/-- First-match lookup in a record (Python dict lookup on string keys). -/
def lookupRec (r : Record) (k : String) : Option PyVal :=
  match r with
  | [] => Option.none
  | (k', v) :: rest => if k' == k then some v else lookupRec rest k

/-- Models `k in item` for a record. -/
def hasKey (r : Record) (k : String) : Bool := (lookupRec r k).isSome

/-- Models `item[k]` after a `k in item` guard (total helper; defaults to `None`). -/
def lookupD (r : Record) (k : String) : PyVal := (lookupRec r k).getD .none

/-- Models `item.get(k, d)`. -/
def getD (r : Record) (k : String) (d : PyVal) : PyVal := (lookupRec r k).getD d

/-- Models `result[k] = v` on a record: replace the first binding of `k`, else
append (Python dict assignment keeps the key's original position). -/
def recUpd (r : Record) (k : String) (v : PyVal) : Record :=
  match r with
  | [] => [(k, v)]
  | (k', v') :: rest =>
    if k' == k then (k', v) :: rest else (k', v') :: recUpd rest k v

/-- Whitespace-stripping for `float(str)` (`str.strip`). -/
def stripWs (l : List Char) : List Char :=
  ((l.dropWhile Char.isWhitespace).reverse.dropWhile Char.isWhitespace).reverse

/-- Scan a Python digit run: digits with single underscores allowed only
between digits, as in Python numeric literals accepted by `float`.
Returns `(value, digit count, rest)`; `Option.none` means the underscore
placement makes the whole parse fail (as it does in CPython). -/
def takeDigits : List Char → ℕ → ℕ → Option (ℕ × ℕ × List Char)
  | [], acc, cnt => some (acc, cnt, [])
  | c :: rest, acc, cnt =>
    if c.isDigit then takeDigits rest (10 * acc + (c.toNat - 48)) (cnt + 1)
    else if c == '_' && cnt > 0 then
      match rest with
      | [] => Option.none
      | d :: rest2 =>
        if d.isDigit then takeDigits rest2 (10 * acc + (d.toNat - 48)) (cnt + 1)
        else Option.none
    else some (acc, cnt, c :: rest)

/-- Parse the decimal part of a Python float literal
(`digits [. digits] [(e|E) [sign] digits]`), already sign-stripped.
ASCII digits only (CPython additionally accepts other Unicode decimal
digits; that corner is not modelled). -/
def parseDecimal (l : List Char) : Option ℚ := do
  let (ip, ic, r1) ← takeDigits l 0 0
  let (fp, fc, r2) ←
    match r1 with
    | '.' :: r => takeDigits r 0 0
    | _ => some (0, 0, r1)
  if ic + fc == 0 then failure
  let mantissa : ℚ := (ip : ℚ) + (fp : ℚ) / ((10 : ℚ) ^ fc)
  match r2 with
  | [] => some mantissa
  | 'e' :: r3 | 'E' :: r3 => do
    let (es, r4) :=
      match r3 with
      | '+' :: r => ((1 : ℤ), r)
      | '-' :: r => ((-1 : ℤ), r)
      | _ => ((1 : ℤ), r3)
    let (ev, ec, r5) ← takeDigits r4 0 0
    if ec == 0 then failure
    if !r5.isEmpty then failure
    some (mantissa * (10 : ℚ) ^ (es * (ev : ℤ)))
  | _ => failure

/-- Models `float(s)` on a string: strip whitespace, optional sign, then either a
case-insensitive `inf`/`infinity`/`nan` or a decimal literal.
`Option.none` is Python's `ValueError`. -/
def pyParseFloat (s : String) : Option PyFloat :=
  let l := stripWs s.data
  let (neg, l2) :=
    match l with
    | '+' :: r => (false, r)
    | '-' :: r => (true, r)
    | _ => (false, l)
  let low := l2.map Char.toLower
  if low == "inf".data || low == "infinity".data then some (.inf (!neg))
  else if low == "nan".data then some .nan
  else (parseDecimal l2).map (fun q => .finite (if neg then -q else q))

/-- Models `float(value)` inside `_categorize_value`'s `try` block:
`Option.none` stands for the caught `ValueError`/`TypeError`. -/
def tryFloat : PyVal → Option PyFloat
  | .int n => some (.finite (n : ℚ))
  | .float f => some f
  | .bool b => some (.finite ((bint b : ℤ) : ℚ))
  | .str s => pyParseFloat s
  | _ => Option.none

/-- Models `f > x` for a Python float against an exact rational threshold. -/
def pfGtQ (f : PyFloat) (x : ℚ) : Bool :=
  match f with
  | .finite q => decide (x < q)
  | .inf s => s
  | .nan => false

/-- Models `ComplexProcessor._categorize_value` (complex_code.py lines 47-59). -/
def categorizeValue (value : PyVal) (threshold : ℤ) : String :=
  match tryFloat value with
  | some num =>
    if pfGtQ num ((threshold * 2 : ℤ) : ℚ) then "high"
    else if pfGtQ num ((threshold : ℤ) : ℚ) then "medium"
    else "low"
  | Option.none =>
    match value with
    | .str s => if s.length > 10 then (if s.length > 20 then "high" else "medium") else "low"
    | _ => "low"

/-- Models `f == x` for a Python float against an exact rational (`nan` is equal
to nothing, including itself). -/
def pfEqQ (f : PyFloat) (x : ℚ) : Bool :=
  match f with
  | .finite q => decide (q = x)
  | _ => false

/-- Python `==` on two floats. -/
def pfEq : PyFloat → PyFloat → Bool
  | .finite a, .finite b => decide (a = b)
  | .inf s, .inf t => s == t
  | _, _ => false

/-- Models `x <= y` on Python floats (`nan` compares false to everything). -/
def pfLe : PyFloat → PyFloat → Bool
  | .finite a, .finite b => decide (a ≤ b)
  | .finite _, .inf s => s
  | .inf s, .finite _ => !s
  | .inf s, .inf t => !s || t
  | _, _ => false

/-- Multiplication on Python floats (`inf * 0` is `nan`). -/
def pfMul : PyFloat → PyFloat → PyFloat
  | .finite a, .finite b => .finite (a * b)
  | .finite a, .inf s => if a = 0 then .nan else .inf (s == decide (0 < a))
  | .inf s, .finite a => if a = 0 then .nan else .inf (s == decide (0 < a))
  | .inf s, .inf t => .inf (s == t)
  | _, _ => .nan

/-- Subtraction on Python floats, as needed by `1 - discount / 100`. -/
def pfSub : PyFloat → PyFloat → PyFloat
  | .finite a, .finite b => .finite (a - b)
  | .finite _, .inf s => .inf (!s)
  | .inf s, .finite _ => .inf s
  | .inf s, .inf t => if s == t then .nan else .inf s
  | _, _ => .nan

/-- Models `f / d` for a nonzero rational denominator (the only division in the
source is `discount / 100`). -/
def pfDivQ (f : PyFloat) (d : ℚ) : PyFloat :=
  match f with
  | .finite a => .finite (a / d)
  | .inf s => .inf (s == decide (0 < d))
  | .nan => .nan

mutual

/-- Python `==` on dynamic values.  Numbers (`int`/`float`/`bool`) compare
by numeric value across types; `set`/`dict` comparison is modelled
structurally on the insertion order (the embedded code never compares two
sets or dicts whose construction order differs). -/
def pyEq : PyVal → PyVal → Bool
  | .int a, .int b => a == b
  | .int a, .float f => pfEqQ f (a : ℚ)
  | .float f, .int a => pfEqQ f (a : ℚ)
  | .int a, .bool b => a == bint b
  | .bool b, .int a => a == bint b
  | .float f, .float g => pfEq f g
  | .float f, .bool b => pfEqQ f ((bint b : ℤ) : ℚ)
  | .bool b, .float f => pfEqQ f ((bint b : ℤ) : ℚ)
  | .bool a, .bool b => a == b
  | .str a, .str b => a == b
  | .none, .none => true
  | .list a, .list b => pyEqList a b
  | .set a, .set b => pyEqList a b
  | .dict a, .dict b => pyEqPairs a b
  | _, _ => false

/-- Elementwise `==` on Python lists. -/
def pyEqList : List PyVal → List PyVal → Bool
  | [], [] => true
  | a :: as', b :: bs => pyEq a b && pyEqList as' bs
  | _, _ => false

/-- Pairwise `==` on dict entries. -/
def pyEqPairs : List (PyVal × PyVal) → List (PyVal × PyVal) → Bool
  | [], [] => true
  | (k, v) :: as', (k', v') :: bs => pyEq k k' && pyEq v v' && pyEqPairs as' bs
  | _, _ => false

end

/-- Python truthiness (`bool(x)`); `bool(nan)` is `True`. -/
def pyTruthy : PyVal → Bool
  | .int n => n != 0
  | .float (.finite q) => decide (q ≠ 0)
  | .float _ => true
  | .bool b => b
  | .str s => !s.isEmpty
  | .list l => !l.isEmpty
  | .dict d => !d.isEmpty
  | .set s => !s.isEmpty
  | .none => false

/-- Hashability of a value (`set.add` raises `TypeError` otherwise). -/
def pyHashable : PyVal → Bool
  | .list _ => false
  | .dict _ => false
  | .set _ => false
  | _ => true

/-- Dict lookup with arbitrary (Python-equal) keys: `d.get(k)`. -/
def dictGet (d : List (PyVal × PyVal)) (k : PyVal) : Option PyVal :=
  match d with
  | [] => Option.none
  | (k', v) :: rest => if pyEq k' k then some v else dictGet rest k

/-- Models `k in d` for a dict with arbitrary keys. -/
def dictHasKey (d : List (PyVal × PyVal)) (k : PyVal) : Bool :=
  (dictGet d k).isSome

/-- Dict insertion (replace the first Python-equal key, else append). -/
def dictInsert (d : List (PyVal × PyVal)) (k v : PyVal) : List (PyVal × PyVal) :=
  match d with
  | [] => [(k, v)]
  | (k', v') :: rest =>
    if pyEq k' k then (k', v) :: rest else (k', v') :: dictInsert rest k v

/-- Models `s.add v` on a Python set, modelled as an insertion-ordered
duplicate-free list. -/
def setAdd (s : List PyVal) (v : PyVal) : List PyVal :=
  if s.any (fun x => pyEq x v) then s else s ++ [v]

mutual

/-- Models `str(v)`.  Numeric, boolean, string and `None` cases follow Python;
container reprs are an order-faithful approximation (their exact spelling
is never inspected by the processor). -/
def pyStr : PyVal → String
  | .int n => toString n
  | .float (.finite q) => if q.den == 1 then toString q.num ++ ".0" else toString q
  | .float (.inf s) => if s then "inf" else "-inf"
  | .float .nan => "nan"
  | .bool b => if b then "True" else "False"
  | .str s => s
  | .none => "None"
  | .list l => "[" ++ pyStrList l ++ "]"
  | .set l => "\x7b" ++ pyStrList l ++ "\x7d"
  | .dict d => "\x7b" ++ pyStrPairs d ++ "\x7d"

/-- Comma-joined stringification of list elements. -/
def pyStrList : List PyVal → String
  | [] => ""
  | [v] => pyStr v
  | v :: rest => pyStr v ++ ", " ++ pyStrList rest

/-- Comma-joined stringification of dict entries. -/
def pyStrPairs : List (PyVal × PyVal) → String
  | [] => ""
  | [(k, v)] => pyStr k ++ ": " ++ pyStr v
  | (k, v) :: rest => pyStr k ++ ": " ++ pyStr v ++ ", " ++ pyStrPairs rest

end

/-- A word character for the regexes `\b\w{6,}\b` and the keyword
patterns (`[A-Za-z0-9_]`; CPython's Unicode word characters beyond ASCII
are not modelled). -/
def isWordChar (c : Char) : Bool := c.isAlphanum || c == '_'

/-- Maximal runs of word characters of a character list, in order. -/
def wordRunsAux : List Char → List Char → List (List Char)
  | [], cur => if cur.isEmpty then [] else [cur.reverse]
  | c :: rest, cur =>
    if isWordChar c then wordRunsAux rest (c :: cur)
    else if cur.isEmpty then wordRunsAux rest []
    else cur.reverse :: wordRunsAux rest []

/-- Maximal word-character runs of a string. -/
def wordRuns (s : String) : List (List Char) := wordRunsAux s.data []

/-- Models `len(re.findall(r'\b\w{6,}\b', s))`: the number of maximal word runs
of length at least 6 (the greedy match with both boundaries takes each
whole run). -/
def longWordCount (s : String) : ℕ :=
  ((wordRuns s).filter (fun w => w.length ≥ 6)).length

/-- Models `re.search(r'\b(?:critical|important|urgent)\b', s, re.IGNORECASE)`:
the keywords are all-word-character, so a whole-word occurrence is
exactly a maximal word run equal to a keyword up to case. -/
def hasKeywordOf (kws : List (List Char)) (s : String) : Bool :=
  (wordRuns s).any (fun w => kws.contains (w.map Char.toLower))

/-- The two keyword patterns of `_process_high_value`; the flag is set
when either one matches. -/
def hasPriorityKeyword (s : String) : Bool :=
  hasKeywordOf ["critical".data, "important".data, "urgent".data] s ||
    hasKeywordOf ["high".data, "medium".data, "low".data] s

/-- Models `[a-zA-Z0-9._%+-]`, the local part of the email pattern. -/
def isLocalChar (c : Char) : Bool :=
  c.isAlpha || c.isDigit || c == '.' || c == '_' || c == '%' || c == '+' || c == '-'

/-- Models `[a-zA-Z0-9.-]`, the domain part of the email pattern. -/
def isDomainChar (c : Char) : Bool :=
  c.isAlpha || c.isDigit || c == '.' || c == '-'

/-- Full-match for `[a-zA-Z0-9.-]+\.[a-zA-Z]{2,}`: the suffix after the
last dot is two or more ASCII letters and the nonempty part before it is
domain characters (a match's letter block must run to the end, so the dot
before it is necessarily the last dot). -/
def domOk (dom : List Char) : Bool :=
  let rtld := dom.reverse.takeWhile (fun c => c != '.')
  match dom.reverse.drop rtld.length with
  | '.' :: pre =>
    !pre.isEmpty && decide (rtld.length ≥ 2) && rtld.all Char.isAlpha &&
      pre.all isDomainChar
  | _ => false

/-- Full-match for the email regex body
`[a-zA-Z0-9._%+-]+@[a-zA-Z0-9.-]+\.[a-zA-Z]{2,}` ('@' is in neither
character class, so the local part ends at the first '@'). -/
def emailCore (l : List Char) : Bool :=
  let lp := l.takeWhile (fun c => c != '@')
  match l.drop lp.length with
  | '@' :: dom => !lp.isEmpty && lp.all isLocalChar && domOk dom
  | _ => false

/-- Models `ComplexProcessor._validate_email` (complex_code.py lines 135-138):
`bool(re.match(r'^[a-zA-Z0-9._%+-]+@[a-zA-Z0-9.-]+\.[a-zA-Z]{2,}$', email))`.
In CPython `$` also matches just before a single trailing newline, so the
regex accepts the core language plus one optional final `'\n'`. -/
def validateEmail (s : String) : Bool :=
  emailCore s.data ||
    (!s.data.isEmpty && s.data.getLast? == some '\n' && emailCore s.data.dropLast)

/-- Modelled from the spec: the claim's email pattern read as a full
decomposition of the string, "one or more characters from
[A-Za-z0-9._%+-], then '@', then one or more characters from
[A-Za-z0-9.-], then '.', then two or more letters". -/
def emailClaimPattern (s : String) : Bool := emailCore s.data

/-- Numeric view used by comparison operators (`0 <= discount <= 100`):
ints, floats and bools are comparable, everything else raises
`TypeError`. -/
def pyNumVal : PyVal → Option PyFloat
  | .int n => some (.finite (n : ℚ))
  | .float f => some f
  | .bool b => some (.finite ((bint b : ℤ) : ℚ))
  | _ => Option.none

/-- Python `*` on dynamic values, as reachable from
`item['price'] * item['quantity']` and `amount * (1 - discount / 100)`:
number times number, and sequence repetition by an integral count. -/
def strRepeat (s : String) (n : ℤ) : String :=
  String.join (List.replicate n.toNat s)

/-- List repetition `l * n`. -/
def listRepeat (l : List PyVal) (n : ℤ) : List PyVal :=
  (List.replicate n.toNat l).flatten

/-- Python multiplication on dynamic values (`TypeError` otherwise). -/
def pyMul : PyVal → PyVal → Except PyErr PyVal
  | .int a, .int b => .ok (.int (a * b))
  | .int a, .bool b => .ok (.int (a * bint b))
  | .bool b, .int a => .ok (.int (bint b * a))
  | .bool a, .bool b => .ok (.int (bint a * bint b))
  | .int a, .float f => .ok (.float (pfMul (.finite (a : ℚ)) f))
  | .float f, .int a => .ok (.float (pfMul f (.finite (a : ℚ))))
  | .bool b, .float f => .ok (.float (pfMul (.finite ((bint b : ℤ) : ℚ)) f))
  | .float f, .bool b => .ok (.float (pfMul f (.finite ((bint b : ℤ) : ℚ))))
  | .float f, .float g => .ok (.float (pfMul f g))
  | .str s, .int n => .ok (.str (strRepeat s n))
  | .int n, .str s => .ok (.str (strRepeat s n))
  | .str s, .bool b => .ok (.str (strRepeat s (bint b)))
  | .bool b, .str s => .ok (.str (strRepeat s (bint b)))
  | .list l, .int n => .ok (.list (listRepeat l n))
  | .int n, .list l => .ok (.list (listRepeat l n))
  | .list l, .bool b => .ok (.list (listRepeat l (bint b)))
  | .bool b, .list l => .ok (.list (listRepeat l (bint b)))
  | _, _ => .error .typeError

/-- Models `ComplexProcessor._apply_discount` (complex_code.py lines 140-144):
the chained comparison `0 <= discount <= 100` raises `TypeError` on
non-numeric discounts; in range, `amount * (1 - discount / 100)`;
otherwise the amount is returned unchanged. -/
def applyDiscountPy (amount discount : PyVal) : Except PyErr PyVal :=
  match pyNumVal discount with
  | some df =>
    if pfLe (.finite 0) df && pfLe df (.finite 100) then
      pyMul amount (.float (pfSub (.finite 1) (pfDivQ df 100)))
    else .ok amount
  | Option.none => .error .typeError

/-- The per-instance factorial memoization cache `self._cache`. -/
abbrev Cache := List (ℤ × ℤ)

/-- Models `n in self._cache` lookup. -/
def cacheLookup (c : Cache) (n : ℤ) : Option ℤ :=
  match c with
  | [] => Option.none
  | (k, v) :: rest => if k == n then some v else cacheLookup rest n

/-- Models `self._cache[n] = result`. -/
def cacheInsert (c : Cache) (n v : ℤ) : Cache :=
  match c with
  | [] => [(n, v)]
  | (k, v') :: rest =>
    if k == n then (k, v) :: rest else (k, v') :: cacheInsert rest n v

/-- Models `ComplexProcessor._calculate_factorial` (complex_code.py lines
146-157) with explicit fuel: cache hit, else base cases 0 and 1 give 1,
else `n * factorial (n - 1)`, caching the result.  `Option.none` is fuel
exhaustion, which only happens on the unboundedly recursing negative
arguments. -/
def calcFactorialFuel : ℕ → ℤ → Cache → Option (ℤ × Cache)
  | 0, _, _ => Option.none
  | fuel + 1, n, c =>
    match cacheLookup c n with
    | some r => some (r, c)
    | Option.none =>
      if n == 0 || n == 1 then some (1, cacheInsert c n 1)
      else
        match calcFactorialFuel fuel (n - 1) c with
        | some (r, c') => some (n * r, cacheInsert c' n (n * r))
        | Option.none => Option.none

/-- Models `_calculate_factorial` as called by the processor; for a nonnegative
argument `n + 1` recursion steps always suffice, and a negative argument
recurses without bound (`RecursionError`). -/
def calculateFactorial (n : ℤ) (c : Cache) : Except PyErr (ℤ × Cache) :=
  match calcFactorialFuel (n.toNat + 1) n c with
  | some r => .ok r
  | Option.none => .error .recursionError

/-- Models `any(tag.get('priority') for tag in item['tags'])`: short-circuiting
scan; a non-dict tag reached by the scan raises `AttributeError`
(`.get` on a non-mapping). -/
def anyPriority : List PyVal → Except PyErr Bool
  | [] => .ok false
  | t :: ts =>
    match t with
    | .dict d =>
      if pyTruthy ((dictGet d (.str "priority")).getD .none) then .ok true
      else anyPriority ts
    | _ => .error .attributeError

/-- One step of the `categories` collection:
`result.setdefault('categories', set()).add(tag['category'])`.
`setdefault` returns an existing non-set value unchanged, whose `.add`
raises `AttributeError`; adding an unhashable value raises `TypeError`.
This computes the contents of the set being mutated.  Because
`result = item.copy()` is a shallow copy, a `categories` set that already
existed in `item` is the same object as the one mutated here, so the
input record is mutated in place; that aliasing effect is rendered by
`writeBackHigh`/`itemAfter` below, which thread the post-run state of
each input record through `processDataWb`. -/
def addCategory (r : Record) (v : PyVal) : Except PyErr Record :=
  match lookupRec r "categories" with
  | some (.set s) =>
    if pyHashable v then .ok (recUpd r "categories" (.set (setAdd s v)))
    else .error .typeError
  | some _ => .error .attributeError
  | Option.none =>
    if pyHashable v then .ok (recUpd r "categories" (.set (setAdd [] v)))
    else .error .typeError

/-- One step of the category-collection loop over the tags. -/
def catStep (acc : Record) (tag : PyVal) : Except PyErr Record :=
  match tag with
  | .dict d =>
    match dictGet d (.str "category") with
    | some cv => addCategory acc cv
    | Option.none => .ok acc
  | _ => .ok acc

/-- The `tags` block of `_process_high_value`: tag count, the
short-circuit priority scan, then category collection over dict tags
(the `tag_count` assignment cannot raise, so it commutes with the scan). -/
def tagsPhase (ts : List PyVal) (r : Record) : Except PyErr Record :=
  match anyPriority ts with
  | .error e => .error e
  | .ok pr =>
    ts.foldlM catStep
      (recUpd (recUpd r "tag_count" (.int (ts.length : ℤ))) "has_priority" (.bool pr))

/-- The `description` block of `_process_high_value`: long-word count and
the priority-keyword flag (only set when a pattern matches). -/
def descPhase (item : Record) (r : Record) : Record :=
  match lookupRec item "description" with
  | some (.str d) =>
    let r1 := recUpd r "long_word_count" (.int (longWordCount d : ℤ))
    if hasPriorityKeyword d then recUpd r1 "has_priority_keywords" (.bool true) else r1
  | _ => r

/-- Models `isinstance(value, (int, float))` (Python bools are ints). -/
def isNumeric : PyVal → Bool
  | .int _ => true
  | .float _ => true
  | .bool _ => true
  | _ => false

/-- Models `int(abs(x))` for a numeric value: `OverflowError` on infinities,
`ValueError` on nan (the `TypeError` fallthrough is unreachable behind
the `isinstance` guard). -/
def intAbsOf : PyVal → Except PyErr ℕ
  | .int n => .ok n.natAbs
  | .bool b => .ok (bint b).toNat
  | .float (.finite q) => .ok ⌊|q|⌋.toNat
  | .float (.inf _) => .error .overflowError
  | .float .nan => .error .valueError
  | _ => .error .typeError

/-- The `value` block of `_process_high_value`:
`result['factorial'] = self._calculate_factorial(int(abs(item['value'])) % 10)`
for numeric values. -/
def valuePhase (item : Record) (r : Record) (c : Cache) :
    Except PyErr (Record × Cache) :=
  match lookupRec item "value" with
  | some v =>
    if isNumeric v then
      match intAbsOf v with
      | .error e => .error e
      | .ok n =>
        match calculateFactorial ((n % 10 : ℕ) : ℤ) c with
        | .error e => .error e
        | .ok (f, c') => .ok (recUpd r "factorial" (.int f), c')
    else .ok (r, c)
  | Option.none => .ok (r, c)

/-- The `tags` dispatch of `_process_high_value`: the block runs only
when `tags` is present and a list. -/
def tagsResult (item : Record) : Except PyErr Record :=
  match lookupRec item "tags" with
  | some (.list ts) => tagsPhase ts item
  | _ => .ok item

/-- Models `ComplexProcessor._process_high_value` (complex_code.py lines 61-92):
shallow copy, then the tags, description and value blocks in order. -/
def processHighValue (item : Record) (c : Cache) : Except PyErr (Record × Cache) :=
  match tagsResult item with
  | .error e => .error e
  | .ok r1 => valuePhase item (descPhase item r1) c

/-- The metadata dict comprehension
`{k.upper(): str(v) for k, v in item['metadata'].items()}` as an ordered
pair list; the first non-string key raises `AttributeError`. -/
def upperPairs : List (PyVal × PyVal) → Except PyErr (List (PyVal × PyVal))
  | [] => .ok []
  | kv :: rest =>
    match kv.1 with
    | .str k =>
      match upperPairs rest with
      | .error e => .error e
      | .ok ps => .ok ((PyVal.str (strUpper k), PyVal.str (pyStr kv.2)) :: ps)
    | _ => .error PyErr.attributeError

/-- Models `ComplexProcessor._process_medium_value` (complex_code.py lines
94-107): rebuild `metadata` with upper-cased string keys and stringified
values (`AttributeError` on a non-string key), then set `has_nested` if
some original metadata value is a dict containing a `'nested'` key. -/
def processMediumValue (item : Record) : Except PyErr Record :=
  match lookupRec item "metadata" with
  | some (.dict md) =>
    match upperPairs md with
    | .error e => .error e
    | .ok pairs =>
      let newmd := pairs.foldl (fun acc kv => dictInsert acc kv.1 kv.2) []
      let r1 := recUpd item "metadata" (.dict newmd)
      let r2 :=
        if md.any (fun kv =>
            match kv.2 with
            | .dict d2 => dictHasKey d2 (.str "nested")
            | _ => false)
        then recUpd r1 "has_nested" (.bool true)
        else r1
      .ok r2
  | _ => .ok item

/-- Models `ComplexProcessor._process_low_value` (complex_code.py lines
109-113): shallow copy plus `processed = True`. -/
def processLowValue (item : Record) : Record :=
  recUpd item "processed" (.bool true)

/-- Values stored in the result dict: tier/side-collection lists of
records, or the counts attached by the post-processing loop. -/
inductive RVal where
  | recs : List Record → RVal
  | count : ℕ → RVal

/-- The result dict of `process_data`, insertion-ordered. -/
abbrev ResDict := List (String × RVal)

/-- Lookup of a result-dict entry. -/
def resLookup (res : ResDict) (k : String) : Option RVal :=
  match res with
  | [] => Option.none
  | (k', v) :: rest => if k' == k then some v else resLookup rest k

/-- The record list stored under a key (empty if absent). -/
def bucket (res : ResDict) (k : String) : List Record :=
  match resLookup res k with
  | some (.recs l) => l
  | _ => []

/-- Models `result.setdefault(k, []).append(e)` / `result[k].append(e)`:
append to the list under `k`, creating it at the end if missing. -/
def resAppend (res : ResDict) (k : String) (e : Record) : ResDict :=
  match res with
  | [] => [(k, .recs [e])]
  | (k', v) :: rest =>
    if k' == k then
      match v with
      | .recs l => (k', .recs (l ++ [e])) :: rest
      | .count _ => (k', .recs [e]) :: rest
    else (k', v) :: resAppend rest k e

/-- Models `.lower()` on a value: `AttributeError` unless it is a string. -/
def pyLower : PyVal → Except PyErr String
  | .str s => .ok (strLower s)
  | _ => .error .attributeError

/-- Models `self._validate_email(item['email'])`: `re.match` raises `TypeError`
on a non-string argument. -/
def validEmailVal : PyVal → Except PyErr Bool
  | .str es => .ok (validateEmail es)
  | _ => .error .typeError

/-- Models `ComplexProcessor._process_by_type` (complex_code.py lines 115-133):
dispatch on `item['type'].lower()`, appending a validated user entry or a
priced product entry to the side collections. -/
def processByType (item : Record) (res : ResDict) : Except PyErr ResDict :=
  match pyLower (lookupD item "type") with
  | .error e => .error e
  | .ok t =>
    if t == "user" then
      if hasKey item "username" && hasKey item "email" then
        match validEmailVal (lookupD item "email") with
        | .error e => .error e
        | .ok valid =>
          .ok (resAppend res "users"
            [("username", lookupD item "username"), ("email", lookupD item "email"),
              ("is_valid", .bool valid)])
      else .ok res
    else if t == "product" then
      if hasKey item "price" && hasKey item "quantity" then
        match pyMul (lookupD item "price") (lookupD item "quantity") with
        | .error e => .error e
        | .ok total =>
          match applyDiscountPy total (getD item "discount" (.int 0)) with
          | .error e => .error e
          | .ok disc =>
            .ok (resAppend res "products"
              [("name", getD item "name" (.str "Unknown")), ("total", total),
                ("discounted", disc)])
      else .ok res
    else .ok res

/-- The tier bucket an enriched record is appended to, mirroring the
`if category == 'high' / elif 'medium' / else` chain of `process_data`. -/
def tierKey (cat : String) : String :=
  if cat == "high" then "high" else if cat == "medium" then "medium" else "low"

/-- Models `if not item or 'value' not in item: continue`: `True` when the
record is kept for processing. -/
def keepB (item : Record) : Bool := !item.isEmpty && hasKey item "value"

/-- The tier-dispatched enrichment of one kept record, mirroring the
`if category == 'high' / elif 'medium' / else` chain of `process_data`. -/
def enrichResult (threshold : ℤ) (item : Record) (c : Cache) :
    Except PyErr (Record × Cache) :=
  let cat := categorizeValue (lookupD item "value") threshold
  if cat == "high" then processHighValue item c
  else if cat == "medium" then
    match processMediumValue item with
    | .error e => .error e
    | .ok r => .ok (r, c)
  else .ok (processLowValue item, c)

/-- The loop body of `process_data` for one record: skip empty or
value-less records; categorize; enrich into the tier bucket; then the
kind-based side aggregation for records with a `type` key. -/
def processItem (threshold : ℤ) (st : ResDict × Cache) (item : Record) :
    Except PyErr (ResDict × Cache) :=
  if !keepB item then .ok st
  else
    match enrichResult threshold item st.2 with
    | .error e => .error e
    | .ok (processed, c') =>
      let res1 := resAppend st.1 (tierKey (categorizeValue (lookupD item "value") threshold)) processed
      match (if hasKey item "type" then processByType item res1 else .ok res1) with
      | .error e => .error e
      | .ok res2 => .ok (res2, c')

/-- The result dict initializer of `process_data`. -/
def initRes : ResDict :=
  [("high", .recs []), ("medium", .recs []), ("low", .recs [])]

/-- Models `ComplexProcessor.process_data` (complex_code.py lines 16-45), with
the instance's cache state threaded explicitly (`self._cache` persists
across calls on one instance). -/
def processDataSt (data : List Record) (threshold : ℤ) (c : Cache) :
    Except PyErr (ResDict × Cache) :=
  data.foldlM (processItem threshold) (initRes, c)

/-- Models `process_data` on a fresh `ComplexProcessor` instance (empty cache). -/
def processData (data : List Record) (threshold : ℤ) : Except PyErr (ResDict × Cache) :=
  processDataSt data threshold []

/-- Models `len(result[k])` for the count loop. -/
def bucketLen (res : ResDict) (k : String) : ℕ := (bucket res k).length

/-- Models `result[f'...count'] = n`: replace-or-append a count entry. -/
def setCount (res : ResDict) (k : String) (n : ℕ) : ResDict :=
  match res with
  | [] => [(k, .count n)]
  | (k', v) :: rest =>
    if k' == k then (k', .count n) :: rest else (k', v) :: setCount rest k n

/-- The `for category in result:` count loop of `process_complex_data`.
CPython dict iterators record the dict's size when created and raise
`RuntimeError` at the next advance once the size has changed, so adding
the first `*_count` key aborts the loop at the following step. -/
def addCountsGo : List String → ResDict → Bool → Except PyErr ResDict
  | [], res, changed => if changed then .error .runtimeError else .ok res
  | k :: ks, res, changed =>
    if changed then .error .runtimeError
    else if k == "high" || k == "medium" || k == "low" then
      let res' := setCount res (k ++ "_count") (bucketLen res k)
      addCountsGo ks res' (res'.length != res.length)
    else addCountsGo ks res false

/-- The count post-processing of `process_complex_data` (lines 170-175). -/
def addCounts (res : ResDict) : Except PyErr ResDict :=
  addCountsGo (res.map (·.1)) res false

/-- Models `process_complex_data` (complex_code.py lines 160-175).  The config
dict's single recognized option is `threshold` (spec §6); it is modelled
as that optional value, defaulting to 10. -/
def processComplexData (data : List Record) (config : Option ℤ) :
    Except PyErr ResDict :=
  if data.isEmpty then .ok []
  else do
    let (res, _) ← processDataSt data (config.getD 10) []
    addCounts res

/-- The cache invariant: every entry maps a nonnegative integer `k` to
`k!`. -/
def goodCacheB (c : Cache) : Bool :=
  c.all (fun p => decide (0 ≤ p.1) && p.2 == (Nat.factorial p.1.toNat : ℤ))

/-- A tag entry that cannot make the `tags` block raise: a mapping whose
`category` value, if any, is hashable. -/
def tagSafe : PyVal → Bool
  | .dict d =>
    match dictGet d (.str "category") with
    | some cv => pyHashable cv
    | Option.none => true
  | _ => false

/-- Safety of the user branch of `_process_by_type`: when both identity
fields are present the email is a string. -/
def userSafe (r : Record) : Bool :=
  match lookupRec r "type" with
  | some (.str s) =>
    if strLower s == "user" && hasKey r "username" && hasKey r "email" then
      match lookupRec r "email" with
      | some (.str _) => true
      | _ => false
    else true
  | _ => true

/-- Safety of the product branch of `_process_by_type`: price, quantity
and discount (when present) are numbers. -/
def productSafe (r : Record) : Bool :=
  match lookupRec r "type" with
  | some (.str s) =>
    if strLower s == "product" && hasKey r "price" && hasKey r "quantity" then
      isNumeric (lookupD r "price") && isNumeric (lookupD r "quantity") &&
        isNumeric (getD r "discount" (.int 0))
    else true
  | _ => true

/-- The `type` field, when present, is a string. -/
def typeSafeB (r : Record) : Bool :=
  match lookupRec r "type" with
  | some (.str _) => true
  | some _ => false
  | Option.none => true

/-- The `tags` field, when a list, holds only safe tag entries. -/
def tagsSafeB (r : Record) : Bool :=
  match lookupRec r "tags" with
  | some (.list ts) => ts.all tagSafe
  | _ => true

/-- The `categories` field, when present, is a set (so `setdefault`'s
result supports `.add`). -/
def catOkB (r : Record) : Bool :=
  match lookupRec r "categories" with
  | some (.set _) => true
  | some _ => false
  | Option.none => true

/-- The `metadata` field, when a dict, has only string keys. -/
def metaSafeB (r : Record) : Bool :=
  match lookupRec r "metadata" with
  | some (.dict md) =>
    md.all (fun kv =>
      match kv.1 with
      | .str _ => true
      | _ => false)
  | _ => true

/-- The `value` field, when a float, is finite (`int(abs(inf))` and
`int(abs(nan))` raise). -/
def valueSafeB (r : Record) : Bool :=
  match lookupRec r "value" with
  | some (.float f) =>
    (match f with
     | .finite _ => true
     | _ => false)
  | _ => true

/-- The record hygiene conditions under which one processing step cannot
raise: a string `type` (when present), mapping tags with hashable
category values (when `tags` is a list), no pre-existing non-set
`categories` field, string metadata keys (when `metadata` is a dict), a
finite `value` (when it is a float), and well-typed user/product side
fields. -/
def recordSafe (r : Record) : Bool :=
  typeSafeB r && tagsSafeB r && catOkB r && metaSafeB r && valueSafeB r &&
    userSafe r && productSafe r

/-- The `value` block of `_process_high_value` with the memoized
factorial replaced by its value: the reference against which the cached
computation is proved equal on good caches. -/
def valueResult (item : Record) (r : Record) : Except PyErr Record :=
  match lookupRec item "value" with
  | some v =>
    if isNumeric v then
      (intAbsOf v).map (fun n => recUpd r "factorial" (.int (Nat.factorial (n % 10) : ℤ)))
    else .ok r
  | Option.none => .ok r

/-- Cache-free result of `_process_high_value` on good caches. -/
def highResult (item : Record) : Except PyErr Record :=
  match tagsResult item with
  | .error e => .error e
  | .ok r1 => valueResult item (descPhase item r1)

/-- Cache-free tier-dispatched enrichment on good caches. -/
def enrichResultP (threshold : ℤ) (item : Record) : Except PyErr Record :=
  let cat := categorizeValue (lookupD item "value") threshold
  if cat == "high" then highResult item
  else if cat == "medium" then processMediumValue item
  else .ok (processLowValue item)

/-- Cache-free result of one `process_data` loop iteration on good
caches. -/
def itemResult (threshold : ℤ) (res : ResDict) (item : Record) : Except PyErr ResDict :=
  if !keepB item then .ok res
  else
    match enrichResultP threshold item with
    | .error e => .error e
    | .ok processed =>
      let res1 := resAppend res (tierKey (categorizeValue (lookupD item "value") threshold)) processed
      if hasKey item "type" then processByType item res1 else .ok res1

/-- Cache-free result of a whole `process_data` run on good caches. -/
def runResult (threshold : ℤ) (data : List Record) (res : ResDict) : Except PyErr ResDict :=
  data.foldlM (itemResult threshold) res

/-- The kept input records landing in tier bucket `k`:
input order, restricted to processed records whose category maps to `k`. -/
def keptTier (threshold : ℤ) (k : String) (data : List Record) : List Record :=
  (data.filter keepB).filter
    (fun i => tierKey (categorizeValue (lookupD i "value") threshold) == k)

/-- The state of an input record after `_process_high_value` ran on it:
`result = item.copy()` is shallow, so when the record already carried a
`categories` set, `result.setdefault('categories', set())` returns that
very set object and every `.add` mutates it in place — afterwards the
input record's `categories` set holds the collected categories (which
equal the enriched record's `categories` value).  A record without a
pre-existing `categories` set is not mutated (the `setdefault` then
inserts a fresh set into the copy only).  The fall-through arms are
unreachable on successful runs (a pre-existing non-set `categories`
raises before any mutation is observable). -/
def writeBackHigh (item result : Record) : Record :=
  match lookupRec item "categories" with
  | some (.set _) =>
    match lookupRec result "categories" with
    | some (.set s') => recUpd item "categories" (.set s')
    | _ => item
  | _ => item

/-- The state of one input record after a `process_data` loop iteration,
given the cache the iteration started from: only the high-tier enricher
ever mutates its input (the medium enricher rebinds `metadata` in the
copy, the low enricher and `_process_by_type` only build fresh objects),
and only through the aliased `categories` set. -/
def itemAfter (threshold : ℤ) (item : Record) (c : Cache) : Record :=
  if !keepB item then item
  else if categorizeValue (lookupD item "value") threshold == "high" then
    match processHighValue item c with
    | .ok (result, _) => writeBackHigh item result
    | .error _ => item
  else item

/-- One `process_data` loop iteration together with the post-run state
of the processed input record appended to an accumulator. -/
def processItemWb (threshold : ℤ) (st : (ResDict × Cache) × List Record)
    (item : Record) : Except PyErr ((ResDict × Cache) × List Record) :=
  match processItem threshold st.1 item with
  | .error e => .error e
  | .ok st' => .ok (st', st.2 ++ [itemAfter threshold item st.1.2])

/-- `process_data` with the post-run states of the input records made
explicit: returns the result dict, the input list as the run leaves it
(rendering the shallow-copy mutation of aliased `categories` sets), and
the final cache.  Mutations performed before an exception also persist
in Python, but a raising run yields no result to compare, so the
after-states are only reported for successful runs. -/
def processDataWb (data : List Record) (threshold : ℤ) (c : Cache) :
    Except PyErr (ResDict × List Record × Cache) :=
  match data.foldlM (processItemWb threshold) ((initRes, c), []) with
  | .error e => .error e
  | .ok ((res, c'), d') => .ok (res, d', c')

/-! ## Basic record and dict lemmas -/

theorem lookupRec_recUpd_self (r : Record) (k : String) (v : PyVal) :
    lookupRec (recUpd r k v) k = some v := by
  induction r with
  | nil => simp [recUpd, lookupRec]
  | cons kv rest ih =>
    obtain ⟨k', v'⟩ := kv
    by_cases h : k' == k
    · simp [recUpd, h, lookupRec]
    · simp [recUpd, h, lookupRec, ih]

theorem lookupRec_recUpd_ne (r : Record) (k k' : String) (v : PyVal)
    (h : k' ≠ k) : lookupRec (recUpd r k v) k' = lookupRec r k' := by
  have hk : (k == k') = false := beq_eq_false_iff_ne.mpr (Ne.symm h)
  induction r with
  | nil => simp [recUpd, lookupRec, hk]
  | cons kv rest ih =>
    obtain ⟨k0, v0⟩ := kv
    by_cases h0 : k0 == k
    · have hk0 : k0 = k := by simpa using h0
      subst hk0
      simp [recUpd, lookupRec, hk]
    · simp [recUpd, h0, lookupRec, ih]

/-! ## C1: numeric tier classification -/

/-- The numeric branch of `_categorize_value` as a conditional. -/
theorem categorize_numeric_eq (v : PyVal) (t : ℤ) (q : ℚ)
    (hv : tryFloat v = some (.finite q)) :
    categorizeValue v t =
      if (t : ℚ) * 2 < q then "high" else if (t : ℚ) < q then "medium" else "low" := by
  unfold categorizeValue
  rw [hv]
  simp [pfGtQ]

/-- C1: for every threshold `t > 0` and every value whose `float(...)`
conversion yields a finite number `q`, the classifier returns `high` iff
`q > 2t`, `medium` iff `t < q ≤ 2t`, and `low` iff `q ≤ t`. -/
theorem categorize_numeric_spec (v : PyVal) (t : ℤ) (q : ℚ)
    (ht : 0 < t) (hv : tryFloat v = some (.finite q)) :
    (categorizeValue v t = "high" ↔ 2 * (t : ℚ) < q) ∧
    (categorizeValue v t = "medium" ↔ ((t : ℚ) < q ∧ q ≤ 2 * (t : ℚ))) ∧
    (categorizeValue v t = "low" ↔ q ≤ (t : ℚ)) := by
  have ht' : (0 : ℚ) < (t : ℚ) := by exact_mod_cast ht
  have hHM : ("high" : String) ≠ "medium" := by decide
  have hHL : ("high" : String) ≠ "low" := by decide
  have hMH : ("medium" : String) ≠ "high" := by decide
  have hML : ("medium" : String) ≠ "low" := by decide
  have hLH : ("low" : String) ≠ "high" := by decide
  have hLM : ("low" : String) ≠ "medium" := by decide
  rw [categorize_numeric_eq v t q hv]
  split_ifs with h1 h2
  · exact ⟨⟨fun _ => by linarith, fun _ => rfl⟩,
      ⟨fun h => absurd h hHM, fun h => absurd h.2 (by linarith)⟩,
      ⟨fun h => absurd h hHL, fun h => absurd h (by push_neg; linarith)⟩⟩
  · exact ⟨⟨fun h => absurd h hMH, fun h => absurd h (by linarith)⟩,
      ⟨fun _ => ⟨h2, by linarith⟩, fun _ => rfl⟩,
      ⟨fun h => absurd h hML, fun h => absurd h (by push_neg; exact h2)⟩⟩
  · exact ⟨⟨fun h => absurd h hLH, fun h => absurd h (by push_neg; linarith)⟩,
      ⟨fun h => absurd h hLM, fun h => absurd h (fun hc => h2 hc.1)⟩,
      ⟨fun _ => by linarith, fun _ => rfl⟩⟩

/-- Witness for `categorize_numeric_spec` at `v = 25`, `t = 10`. -/
theorem categorize_numeric_spec_witness :
    (0 : ℤ) < 10 ∧
    ((categorizeValue (.int 25) 10 = "high" ↔ 2 * ((10 : ℤ) : ℚ) < 25) ∧
     (categorizeValue (.int 25) 10 = "medium" ↔
       (((10 : ℤ) : ℚ) < 25 ∧ (25 : ℚ) ≤ 2 * ((10 : ℤ) : ℚ))) ∧
     (categorizeValue (.int 25) 10 = "low" ↔ (25 : ℚ) ≤ ((10 : ℤ) : ℚ))) :=
  ⟨by decide, categorize_numeric_spec (.int 25) 10 25 (by decide) rfl⟩

/-! ## C3: textual tier classification -/

/-- C3: for every string that does not parse as a number, the classifier
returns `high` iff its length exceeds 20, `medium` iff its length is in
(10, 20], and `low` iff its length is at most 10. -/
theorem categorize_text_spec (s : String) (t : ℤ)
    (hs : pyParseFloat s = Option.none) :
    (categorizeValue (.str s) t = "high" ↔ 20 < s.length) ∧
    (categorizeValue (.str s) t = "medium" ↔ (10 < s.length ∧ s.length ≤ 20)) ∧
    (categorizeValue (.str s) t = "low" ↔ s.length ≤ 10) := by
  have hHM : ("high" : String) ≠ "medium" := by decide
  have hHL : ("high" : String) ≠ "low" := by decide
  have hMH : ("medium" : String) ≠ "high" := by decide
  have hML : ("medium" : String) ≠ "low" := by decide
  have hLH : ("low" : String) ≠ "high" := by decide
  have hLM : ("low" : String) ≠ "medium" := by decide
  have heq : categorizeValue (.str s) t =
      if s.length > 10 then (if s.length > 20 then "high" else "medium") else "low" := by
    unfold categorizeValue
    simp [tryFloat, hs]
  rw [heq]
  split_ifs with h1 h2
  · exact ⟨⟨fun _ => h2, fun _ => rfl⟩,
      ⟨fun h => absurd h hHM, fun h => absurd h.2 (by omega)⟩,
      ⟨fun h => absurd h hHL, fun h => absurd h (by omega)⟩⟩
  · exact ⟨⟨fun h => absurd h hMH, fun h => absurd h (by omega)⟩,
      ⟨fun _ => ⟨h1, by omega⟩, fun _ => rfl⟩,
      ⟨fun h => absurd h hML, fun h => absurd h (by omega)⟩⟩
  · exact ⟨⟨fun h => absurd h hLH, fun h => absurd h (by omega)⟩,
      ⟨fun h => absurd h hLM, fun h => absurd h.1 (by omega)⟩,
      ⟨fun _ => by omega, fun _ => rfl⟩⟩

/-- Witness for `categorize_text_spec` at a 12-character non-numeric
string. -/
theorem categorize_text_spec_witness :
    pyParseFloat "abcdefghijkl" = Option.none ∧
    ((categorizeValue (.str "abcdefghijkl") 7 = "high" ↔ 20 < "abcdefghijkl".length) ∧
     (categorizeValue (.str "abcdefghijkl") 7 = "medium" ↔
       (10 < "abcdefghijkl".length ∧ "abcdefghijkl".length ≤ 20)) ∧
     (categorizeValue (.str "abcdefghijkl") 7 = "low" ↔ "abcdefghijkl".length ≤ 10)) :=
  ⟨rfl, categorize_text_spec "abcdefghijkl" 7 rfl⟩

/-! ## C6: email validation -/

/-- C6 counterexample: the code's validator accepts `"a@b.co\n"` (CPython
`$` matches before a final newline) although that string does not match
the claim's pattern, whose final component is two or more letters. -/
theorem validate_email_newline_cex :
    validateEmail "a@b.co\n" = true ∧ emailClaimPattern "a@b.co\n" = false :=
  ⟨rfl, rfl⟩

/-- C6 amended: the validator accepts exactly the claim's pattern or that
pattern followed by one trailing newline, and the claim's three examples
behave as stated. -/
theorem validate_email_spec :
    (∀ s : String, validateEmail s = true ↔
      (emailClaimPattern s = true ∨ ∃ u, s = u ++ "\n" ∧ emailClaimPattern u = true)) ∧
    validateEmail "a@b.co" = true ∧ validateEmail "jane@example" = false ∧
    validateEmail "@b.com" = false := by
  refine ⟨fun s => ?_, rfl, rfl, rfl⟩
  unfold validateEmail emailClaimPattern
  simp only [Bool.or_eq_true, Bool.and_eq_true, beq_iff_eq]
  constructor
  · rintro (h | ⟨⟨hne, hlast⟩, hcore⟩)
    · exact Or.inl h
    · refine Or.inr ⟨⟨s.data.dropLast⟩, ?_, hcore⟩
      have hne' : s.data ≠ [] := by simpa using hne
      apply String.ext
      simp only [String.data_append]
      have hlastv : s.data.getLast hne' = '\n' := by
        have := List.getLast?_eq_getLast s.data hne'
        rw [hlast] at this
        exact (Option.some_injective _ this.symm)
      rw [← hlastv]
      exact (List.dropLast_append_getLast hne').symm
  · rintro (h | ⟨u, rfl, hcore⟩)
    · exact Or.inl h
    · right
      have hdata : (u ++ "\n").data = u.data ++ ['\n'] := by
        simp [String.data_append]
      refine ⟨⟨?_, ?_⟩, ?_⟩
      · simp [hdata]
      · simp [hdata, List.getLast?_concat]
      · simpa [hdata, List.dropLast_concat] using hcore

/-! ## C7: discount application -/

/-- C7: on numbers, `_apply_discount` returns `a * (1 - d / 100)` when
`0 ≤ d ≤ 100` and the unchanged amount otherwise; in particular
`100` with discount `10` gives the float `90.0` and `100` with discount
`150` stays `100`. -/
theorem apply_discount_spec :
    (∀ a d : ℚ, applyDiscountPy (.float (.finite a)) (.float (.finite d)) =
      .ok (.float (.finite (if 0 ≤ d ∧ d ≤ 100 then a * (1 - d / 100) else a)))) ∧
    applyDiscountPy (.int 100) (.int 10) = .ok (.float (.finite 90)) ∧
    applyDiscountPy (.int 100) (.int 150) = .ok (.int 100) := by
  refine ⟨fun a d => ?_, by norm_num [applyDiscountPy, pyNumVal, pfLe, pfDivQ,
    pfSub, pfMul, pyMul], by norm_num [applyDiscountPy, pyNumVal, pfLe]⟩
  by_cases h1 : 0 ≤ d
  · by_cases h2 : d ≤ 100
    · simp [applyDiscountPy, pyNumVal, pfLe, pfDivQ, pfSub, pfMul, pyMul, h1, h2]
    · simp [applyDiscountPy, pyNumVal, pfLe, h1, h2]
  · simp [applyDiscountPy, pyNumVal, pfLe, h1]

/-! ## Factorial and cache lemmas -/

theorem goodCacheB_mem {c : Cache} (hg : goodCacheB c = true) {p : ℤ × ℤ}
    (hp : p ∈ c) : 0 ≤ p.1 ∧ p.2 = (Nat.factorial p.1.toNat : ℤ) := by
  have := List.all_eq_true.mp hg p hp
  simpa using this

theorem cacheLookup_mem {c : Cache} {n r : ℤ} (h : cacheLookup c n = some r) :
    (n, r) ∈ c := by
  induction c with
  | nil => simp [cacheLookup] at h
  | cons p rest ih =>
    obtain ⟨k, v⟩ := p
    by_cases hk : k == n
    · have : k = n := by simpa using hk
      subst this
      simp [cacheLookup] at h
      simp [h]
    · simp [cacheLookup, hk] at h
      exact List.mem_cons_of_mem _ (ih h)

theorem cacheInsert_good {c : Cache} (hg : goodCacheB c = true) {n v : ℤ}
    (hn : 0 ≤ n) (hv : v = (Nat.factorial n.toNat : ℤ)) :
    goodCacheB (cacheInsert c n v) = true := by
  subst hv
  unfold goodCacheB at hg ⊢
  induction c with
  | nil => simp [cacheInsert, hn]
  | cons p rest ih =>
    obtain ⟨k, v'⟩ := p
    simp only [List.all_cons, Bool.and_eq_true] at hg
    by_cases hk : k == n
    · have hkn : k = n := by simpa using hk
      subst hkn
      simp [cacheInsert, List.all_cons, hn, hg.2]
    · simp [cacheInsert, hk, List.all_cons, hg.1, ih hg.2]

/-- Within the fuel bound, the memoized factorial on a good cache
returns `n!` and leaves the cache good. -/
theorem calcFuel_good (fuel : ℕ) : ∀ (m : ℕ) (c : Cache),
    goodCacheB c = true → m < fuel →
    ∃ c', calcFactorialFuel fuel (m : ℤ) c = some ((Nat.factorial m : ℤ), c') ∧
      goodCacheB c' = true := by
  induction fuel with
  | zero => intro m c _ h; omega
  | succ fuel ih =>
    intro m c hg _
    cases hcl : cacheLookup c (m : ℤ) with
    | some r =>
      obtain ⟨_, hr⟩ := goodCacheB_mem hg (cacheLookup_mem hcl)
      refine ⟨c, ?_, hg⟩
      simp only [calcFactorialFuel, hcl]
      simp at hr
      rw [hr]
    | none =>
      by_cases hm : m ≤ 1
      · have hbase : ((m : ℤ) == 0 || (m : ℤ) == 1) = true := by
          interval_cases m <;> decide
        refine ⟨cacheInsert c (m : ℤ) 1, ?_, ?_⟩
        · simp only [calcFactorialFuel, hcl, hbase, if_true]
          have : (Nat.factorial m : ℤ) = 1 := by
            interval_cases m <;> decide
          rw [this]
        · refine cacheInsert_good hg (by positivity) ?_
          have : ((m : ℤ)).toNat = m := Int.toNat_natCast m
          rw [this]
          interval_cases m <;> decide
      · have hm2 : 2 ≤ m := by omega
        obtain ⟨k, rfl⟩ : ∃ k, m = k + 1 := ⟨m - 1, by omega⟩
        have hbase : (((k + 1 : ℕ) : ℤ) == 0 || ((k + 1 : ℕ) : ℤ) == 1) = false := by
          have h0 : (((k + 1 : ℕ) : ℤ) == 0) = false := by
            refine beq_eq_false_iff_ne.mpr ?_
            omega
          have h1 : (((k + 1 : ℕ) : ℤ) == 1) = false := by
            refine beq_eq_false_iff_ne.mpr ?_
            omega
          rw [h0, h1]
          rfl
        have hlt : k < fuel := by omega
        obtain ⟨c1, hrec, hg1⟩ := ih k c hg hlt
        have hcast : ((k + 1 : ℕ) : ℤ) - 1 = ((k : ℕ) : ℤ) := by omega
        have hfact : ((k + 1 : ℕ) : ℤ) * (Nat.factorial k : ℤ) =
            (Nat.factorial (k + 1) : ℤ) := by
          rw [Nat.factorial_succ]
          push_cast
          ring
        refine ⟨cacheInsert c1 ((k + 1 : ℕ) : ℤ) (Nat.factorial (k + 1) : ℤ), ?_, ?_⟩
        · simp only [calcFactorialFuel, hcl, hbase, if_false, Bool.false_eq_true,
            hcast, hrec, hfact]
        · refine cacheInsert_good hg1 (by positivity) ?_
          rw [Int.toNat_natCast]

/-- On a good cache a negative argument recurses forever: no amount of
fuel produces a result. -/
theorem calcFuel_neg (fuel : ℕ) : ∀ (n : ℤ) (c : Cache),
    goodCacheB c = true → n < 0 → calcFactorialFuel fuel n c = Option.none := by
  induction fuel with
  | zero => intro n c _ _; rfl
  | succ fuel ih =>
    intro n c hg hn
    cases hcl : cacheLookup c n with
    | some r =>
      obtain ⟨h0, _⟩ := goodCacheB_mem hg (cacheLookup_mem hcl)
      simp at h0
      omega
    | none =>
      have hbase : (n == 0 || n == 1) = false := by
        have h0 : (n == 0) = false := beq_eq_false_iff_ne.mpr (by omega)
        have h1 : (n == 1) = false := beq_eq_false_iff_ne.mpr (by omega)
        simp [h0, h1]
      simp only [calcFactorialFuel, hcl, hbase, if_false, Bool.false_eq_true]
      rw [ih (n - 1) c hg (by omega)]

/-- Models `_calculate_factorial` at a nonnegative argument on a good cache. -/
theorem calculateFactorial_good (m : ℕ) (c : Cache) (hg : goodCacheB c = true) :
    ∃ c', calculateFactorial (m : ℤ) c = .ok ((Nat.factorial m : ℤ), c') ∧
      goodCacheB c' = true := by
  obtain ⟨c', h, hg'⟩ := calcFuel_good (m + 1) m c hg (by omega)
  refine ⟨c', ?_, hg'⟩
  unfold calculateFactorial
  rw [Int.toNat_natCast m, h]

/-! ## C10: memoized factorial -/

/-- C10: on every good cache state (every entry maps `k` to `k!`, the
only states reachable from in-range calls), the memoized factorial at
`0 ≤ n ≤ 9` terminates within its recursion depth with `n!` and keeps
the cache good; for a negative argument it never terminates (no fuel
suffices). -/
theorem calculate_factorial_spec :
    (∀ (n : ℕ) (c : Cache) (fuel : ℕ), goodCacheB c = true → n ≤ 9 → n < fuel →
      ∃ c', calcFactorialFuel fuel (n : ℤ) c = some ((Nat.factorial n : ℤ), c') ∧
        goodCacheB c' = true) ∧
    (∀ (n : ℤ) (c : Cache) (fuel : ℕ), goodCacheB c = true → n < 0 →
      calcFactorialFuel fuel n c = Option.none) :=
  ⟨fun n c fuel hg _ hlt => calcFuel_good fuel n c hg hlt,
   fun n c fuel hg hn => calcFuel_neg fuel n c hg hn⟩

/-- Witness for `calculate_factorial_spec`: factorial 5 from the empty
cache, and divergence at `-1`. -/
theorem calculate_factorial_spec_witness :
    (goodCacheB [] = true ∧ 5 ≤ 9 ∧ 5 < 6 ∧
      (∃ c', calcFactorialFuel 6 ((5 : ℕ) : ℤ) [] = some ((Nat.factorial 5 : ℤ), c') ∧
        goodCacheB c' = true)) ∧
    (goodCacheB [] = true ∧ (-1 : ℤ) < 0 ∧ calcFactorialFuel 3 (-1) [] = Option.none) :=
  ⟨⟨rfl, by decide, by decide, calculate_factorial_spec.1 5 [] 6 rfl (by decide) (by decide)⟩,
   ⟨rfl, by decide, calculate_factorial_spec.2 (-1) [] 3 rfl (by decide)⟩⟩

/-! ## C8: factorial enrichment of high-tier records -/

/-- Models `intAbsOf` succeeds only on numeric values. -/
theorem isNumeric_of_intAbsOf {v : PyVal} {n : ℕ} (h : intAbsOf v = .ok n) :
    isNumeric v = true := by
  cases v with
  | float f => cases f <;> simp_all [intAbsOf, isNumeric]
  | _ => simp_all [intAbsOf, isNumeric]

/-- C8: whenever the high enricher succeeds on a record whose `value` is
numeric with `int(abs(value)) = n`, the enriched record's `factorial`
field is `(n % 10)!` — the factorial of the absolute value bounded to
0–9 by the modulo, computed by the memoized recursion. -/
theorem high_enricher_factorial (item : Record) (c : Cache) (v : PyVal) (n : ℕ)
    (res : Record) (c' : Cache)
    (hg : goodCacheB c = true)
    (hv : lookupRec item "value" = some v)
    (hn : intAbsOf v = .ok n)
    (hr : processHighValue item c = .ok (res, c')) :
    lookupRec res "factorial" = some (.int (Nat.factorial (n % 10) : ℤ)) := by
  unfold processHighValue at hr
  cases htags : tagsResult item with
  | error e => rw [htags] at hr; exact absurd hr (by simp)
  | ok r1 =>
    rw [htags] at hr
    dsimp only at hr
    unfold valuePhase at hr
    rw [hv] at hr
    dsimp only at hr
    rw [isNumeric_of_intAbsOf hn] at hr
    rw [hn] at hr
    dsimp only at hr
    obtain ⟨c1, hcf, _⟩ := calculateFactorial_good (n % 10) c hg
    rw [hcf] at hr
    dsimp only at hr
    simp only [Except.ok.injEq, Prod.mk.injEq] at hr
    obtain ⟨rfl, rfl⟩ := hr
    exact lookupRec_recUpd_self _ _ _

/-- Witness for `high_enricher_factorial`: a record with value 15 gets
`factorial = 120`. -/
theorem high_enricher_factorial_witness :
    goodCacheB [] = true ∧
    intAbsOf (.int 15) = .ok 15 ∧
    processHighValue [("value", PyVal.int 15)] [] =
      .ok ([("value", PyVal.int 15), ("factorial", PyVal.int 120)],
        [(1, 1), (2, 2), (3, 6), (4, 24), (5, 120)]) ∧
    lookupRec [("value", PyVal.int 15), ("factorial", PyVal.int 120)] "factorial" =
      some (.int (Nat.factorial (15 % 10) : ℤ)) :=
  ⟨rfl, rfl, rfl,
    high_enricher_factorial [("value", PyVal.int 15)] [] (.int 15) 15
      [("value", PyVal.int 15), ("factorial", PyVal.int 120)]
      [(1, 1), (2, 2), (3, 6), (4, 24), (5, 120)] rfl rfl rfl rfl⟩

/-! ## Bind helpers, the skip lemma, and C5 -/

theorem except_bind_ok {α β : Type} (a : α) (f : α → Except PyErr β) :
    (Except.ok a >>= f) = f a := rfl

theorem except_bind_error {α β : Type} (e : PyErr) (f : α → Except PyErr β) :
    ((Except.error e : Except PyErr α) >>= f) = .error e := rfl

theorem processItem_skip (t : ℤ) (st : ResDict × Cache) (i : Record)
    (h : keepB i = false) : processItem t st i = .ok st := by
  unfold processItem
  rw [h]
  rfl

theorem foldlM_filter_keep (t : ℤ) (d : List Record) :
    ∀ st : ResDict × Cache,
      (d.filter keepB).foldlM (processItem t) st = d.foldlM (processItem t) st := by
  induction d with
  | nil => intro st; rfl
  | cons i d' ih =>
    intro st
    by_cases hk : keepB i = true
    · rw [List.filter_cons, if_pos hk, List.foldlM_cons, List.foldlM_cons]
      cases hpi : processItem t st i with
      | error e => rfl
      | ok st' => rw [except_bind_ok, except_bind_ok, ih]
    · have hk' : keepB i = false := by simpa using hk
      rw [List.filter_cons, if_neg (by simp [hk']), List.foldlM_cons,
        processItem_skip t st i hk', except_bind_ok, ih]

/-- C5: a record that is empty or lacks a `value` field contributes
nothing to a `process_data` run (filtering such records away changes
nothing), and — the code-bug part — `process_complex_data` on the
one-empty-record input raises `RuntimeError` in its count loop instead of
returning a result with zero counts. -/
theorem skipped_records_spec :
    processComplexData [[]] Option.none = .error .runtimeError ∧
    (∀ (d : List Record) (t : ℤ) (c : Cache),
      processDataSt (d.filter keepB) t c = processDataSt d t c) :=
  ⟨rfl, fun d t c => foldlM_filter_keep t d (initRes, c)⟩

/-! ## Safety lemmas for C2 -/

theorem tagSafe_cases {x : PyVal} (h : tagSafe x = true) :
    ∃ d, x = .dict d ∧
      ∀ cv, dictGet d (.str "category") = some cv → pyHashable cv = true := by
  cases x
  case dict d =>
    refine ⟨d, rfl, fun cv hcv => ?_⟩
    unfold tagSafe at h
    dsimp only at h
    rw [hcv] at h
    exact h
  all_goals simp [tagSafe] at h

theorem anyPriority_ok {ts : List PyVal} (h : ∀ x ∈ ts, tagSafe x = true) :
    ∃ b, anyPriority ts = .ok b := by
  induction ts with
  | nil => exact ⟨false, rfl⟩
  | cons x ts ih =>
    obtain ⟨d, rfl, -⟩ := tagSafe_cases (h x (List.mem_cons_self x ts))
    by_cases ht : pyTruthy ((dictGet d (.str "priority")).getD .none) = true
    · exact ⟨true, by simp [anyPriority, ht]⟩
    · obtain ⟨b, hb⟩ := ih (fun y hy => h y (List.mem_cons_of_mem _ hy))
      have ht' : pyTruthy ((dictGet d (.str "priority")).getD .none) = false := by
        simpa using ht
      exact ⟨b, by simp [anyPriority, ht', hb]⟩

theorem catOkB_recUpd_ne (r : Record) (k : String) (v : PyVal)
    (h : k ≠ "categories") : catOkB (recUpd r k v) = catOkB r := by
  unfold catOkB
  rw [lookupRec_recUpd_ne r k "categories" v (Ne.symm h)]

theorem addCategory_ok {r : Record} {v : PyVal} (hc : catOkB r = true)
    (hh : pyHashable v = true) :
    ∃ r', addCategory r v = .ok r' ∧ catOkB r' = true := by
  unfold catOkB at hc
  cases hl : lookupRec r "categories" with
  | none =>
    refine ⟨recUpd r "categories" (.set (setAdd [] v)), ?_, ?_⟩
    · unfold addCategory
      rw [hl]
      dsimp only
      rw [if_pos hh]
    · unfold catOkB
      rw [lookupRec_recUpd_self]
  | some pv =>
    rw [hl] at hc
    cases pv
    case set s =>
      refine ⟨recUpd r "categories" (.set (setAdd s v)), ?_, ?_⟩
      · unfold addCategory
        rw [hl]
        dsimp only
        rw [if_pos hh]
      · unfold catOkB
        rw [lookupRec_recUpd_self]
    all_goals simp at hc

theorem catFold_ok (ts : List PyVal) : ∀ r : Record,
    (∀ x ∈ ts, tagSafe x = true) → catOkB r = true →
    ∃ r', ts.foldlM catStep r = .ok r' ∧ catOkB r' = true := by
  induction ts with
  | nil => intro r _ hc; exact ⟨r, rfl, hc⟩
  | cons x ts ih =>
    intro r h hc
    obtain ⟨d, rfl, hcat⟩ := tagSafe_cases (h x (List.mem_cons_self x ts))
    rw [List.foldlM_cons]
    cases hdg : dictGet d (.str "category") with
    | none =>
      have hstep : catStep r (.dict d) = .ok r := by
        unfold catStep
        dsimp only
        rw [hdg]
      rw [hstep, except_bind_ok]
      exact ih r (fun y hy => h y (List.mem_cons_of_mem _ hy)) hc
    | some cv =>
      obtain ⟨r1, hr1, hc1⟩ := addCategory_ok hc (hcat cv hdg)
      have hstep : catStep r (.dict d) = .ok r1 := by
        unfold catStep
        dsimp only
        rw [hdg]
        exact hr1
      rw [hstep, except_bind_ok]
      exact ih r1 (fun y hy => h y (List.mem_cons_of_mem _ hy)) hc1

theorem tagsPhase_ok {ts : List PyVal} {r : Record}
    (h : ∀ x ∈ ts, tagSafe x = true) (hc : catOkB r = true) :
    ∃ r', tagsPhase ts r = .ok r' := by
  obtain ⟨pr, hpr⟩ := anyPriority_ok h
  have hc2 : catOkB (recUpd (recUpd r "tag_count" (.int (ts.length : ℤ)))
      "has_priority" (.bool pr)) = true := by
    rw [catOkB_recUpd_ne _ _ _ (by decide), catOkB_recUpd_ne _ _ _ (by decide)]
    exact hc
  obtain ⟨r', hr', -⟩ := catFold_ok ts _ h hc2
  refine ⟨r', ?_⟩
  unfold tagsPhase
  rw [hpr]
  exact hr'

theorem tagsResult_ok {item : Record} (hts : tagsSafeB item = true)
    (hc : catOkB item = true) : ∃ r1, tagsResult item = .ok r1 := by
  unfold tagsSafeB at hts
  unfold tagsResult
  cases hl : lookupRec item "tags" with
  | none => exact ⟨item, rfl⟩
  | some v =>
    rw [hl] at hts
    cases v with
    | list ts =>
      exact tagsPhase_ok (fun x hx => List.all_eq_true.mp hts x hx) hc
    | _ => exact ⟨item, rfl⟩

theorem calcFuel_some (fuel : ℕ) : ∀ (m : ℕ) (c : Cache), m < fuel →
    ∃ out, calcFactorialFuel fuel (m : ℤ) c = some out := by
  induction fuel with
  | zero => intro m c h; omega
  | succ fuel ih =>
    intro m c _
    cases hcl : cacheLookup c (m : ℤ) with
    | some r => exact ⟨(r, c), by simp [calcFactorialFuel, hcl]⟩
    | none =>
      by_cases hm : m ≤ 1
      · have hbase : ((m : ℤ) == 0 || (m : ℤ) == 1) = true := by
          interval_cases m <;> decide
        exact ⟨(1, cacheInsert c (m : ℤ) 1), by
          simp only [calcFactorialFuel, hcl, hbase, if_true]⟩
      · obtain ⟨k, rfl⟩ : ∃ k, m = k + 1 := ⟨m - 1, by omega⟩
        have hbase : (((k + 1 : ℕ) : ℤ) == 0 || ((k + 1 : ℕ) : ℤ) == 1) = false := by
          have h0 : (((k + 1 : ℕ) : ℤ) == 0) = false := beq_eq_false_iff_ne.mpr (by omega)
          have h1 : (((k + 1 : ℕ) : ℤ) == 1) = false := beq_eq_false_iff_ne.mpr (by omega)
          rw [h0, h1]
          rfl
        obtain ⟨⟨rv, cv⟩, hrec⟩ := ih k c (by omega)
        have hcast : ((k + 1 : ℕ) : ℤ) - 1 = ((k : ℕ) : ℤ) := by omega
        refine ⟨(((k + 1 : ℕ) : ℤ) * rv, cacheInsert cv ((k + 1 : ℕ) : ℤ)
          (((k + 1 : ℕ) : ℤ) * rv)), ?_⟩
        simp only [calcFactorialFuel, hcl, hbase, if_false, Bool.false_eq_true, hcast, hrec]

theorem calculateFactorial_some (m : ℕ) (c : Cache) :
    ∃ out, calculateFactorial ((m : ℕ) : ℤ) c = .ok out := by
  obtain ⟨out, h⟩ := calcFuel_some (m + 1) m c (by omega)
  refine ⟨out, ?_⟩
  unfold calculateFactorial
  rw [Int.toNat_natCast m, h]

theorem valuePhase_ok {item : Record} (hval : valueSafeB item = true)
    (r : Record) (c : Cache) : ∃ out, valuePhase item r c = .ok out := by
  unfold valueSafeB at hval
  unfold valuePhase
  cases hl : lookupRec item "value" with
  | none => exact ⟨(r, c), rfl⟩
  | some v =>
    rw [hl] at hval
    cases v with
    | int n =>
      obtain ⟨⟨f, c'⟩, hcf⟩ := calculateFactorial_some (n.natAbs % 10) c
      refine ⟨(recUpd r "factorial" (.int f), c'), ?_⟩
      simp only [isNumeric, if_true, intAbsOf, hcf]
    | bool b =>
      obtain ⟨⟨f, c'⟩, hcf⟩ := calculateFactorial_some ((bint b).toNat % 10) c
      refine ⟨(recUpd r "factorial" (.int f), c'), ?_⟩
      simp only [isNumeric, if_true, intAbsOf, hcf]
    | float f =>
      cases f with
      | finite q =>
        obtain ⟨⟨fv, c'⟩, hcf⟩ := calculateFactorial_some (⌊|q|⌋.toNat % 10) c
        refine ⟨(recUpd r "factorial" (.int fv), c'), ?_⟩
        simp only [isNumeric, if_true, intAbsOf, hcf]
      | inf s => simp at hval
      | nan => simp at hval
    | str s => exact ⟨(r, c), rfl⟩
    | list l => exact ⟨(r, c), rfl⟩
    | dict dd => exact ⟨(r, c), rfl⟩
    | set ss => exact ⟨(r, c), rfl⟩
    | none => exact ⟨(r, c), rfl⟩

theorem processHighValue_ok {item : Record} (hts : tagsSafeB item = true)
    (hc : catOkB item = true) (hval : valueSafeB item = true) (c : Cache) :
    ∃ out, processHighValue item c = .ok out := by
  obtain ⟨r1, hr1⟩ := tagsResult_ok hts hc
  obtain ⟨out, hout⟩ := valuePhase_ok hval (descPhase item r1) c
  refine ⟨out, ?_⟩
  unfold processHighValue
  rw [hr1]
  exact hout

theorem upperPairs_ok {md : List (PyVal × PyVal)}
    (h : md.all (fun kv =>
      match kv.1 with
      | .str _ => true
      | _ => false) = true) :
    ∃ ps, upperPairs md = .ok ps := by
  induction md with
  | nil => exact ⟨[], rfl⟩
  | cons kv rest ih =>
    simp only [List.all_cons, Bool.and_eq_true] at h
    obtain ⟨ps, hps⟩ := ih h.2
    obtain ⟨k0, v0⟩ := kv
    cases k0 with
    | str k =>
      exact ⟨(PyVal.str (strUpper k), PyVal.str (pyStr v0)) :: ps, by
        unfold upperPairs
        rw [hps]⟩
    | _ => simp at h

theorem processMediumValue_ok {item : Record} (hm : metaSafeB item = true) :
    ∃ r, processMediumValue item = .ok r := by
  unfold metaSafeB at hm
  unfold processMediumValue
  cases hl : lookupRec item "metadata" with
  | none => exact ⟨item, rfl⟩
  | some v =>
    rw [hl] at hm
    cases v
    case dict md =>
      obtain ⟨ps, hps⟩ := upperPairs_ok hm
      dsimp only
      rw [hps]
      exact ⟨_, rfl⟩
    all_goals exact ⟨item, rfl⟩

theorem pyMul_num {a b : PyVal} (ha : isNumeric a = true) (hb : isNumeric b = true) :
    ∃ v, pyMul a b = .ok v ∧ isNumeric v = true := by
  cases a <;> cases b <;> simp_all [pyMul, isNumeric]

theorem pyNumVal_of_isNumeric {v : PyVal} (h : isNumeric v = true) :
    ∃ f, pyNumVal v = some f := by
  cases v <;> simp_all [pyNumVal, isNumeric]

theorem applyDiscount_ok {amount discount : PyVal} (ha : isNumeric amount = true)
    (hd : isNumeric discount = true) :
    ∃ v, applyDiscountPy amount discount = .ok v := by
  obtain ⟨f, hf⟩ := pyNumVal_of_isNumeric hd
  unfold applyDiscountPy
  rw [hf]
  dsimp only
  by_cases hr : (pfLe (.finite 0) f && pfLe f (.finite 100)) = true
  · rw [if_pos hr]
    obtain ⟨v, hv, -⟩ := pyMul_num ha (show isNumeric (.float (pfSub (.finite 1) (pfDivQ f 100))) = true from rfl)
    exact ⟨v, hv⟩
  · rw [if_neg hr]
    exact ⟨amount, rfl⟩

theorem processByType_ok {item : Record} (hty : typeSafeB item = true)
    (hu : userSafe item = true) (hp : productSafe item = true)
    (hhk : hasKey item "type" = true) (res : ResDict) :
    ∃ res2, processByType item res = .ok res2 := by
  unfold typeSafeB at hty
  cases hl : lookupRec item "type" with
  | none => rw [hasKey, hl] at hhk; simp at hhk
  | some tv =>
    rw [hl] at hty
    cases tv with
    | str s =>
      have hpl : pyLower (lookupD item "type") = .ok (strLower s) := by
        unfold lookupD
        rw [hl]
        rfl
      unfold processByType
      rw [hpl]
      dsimp only
      by_cases huser : (strLower s == "user") = true
      · rw [if_pos huser]
        by_cases hfields : (hasKey item "username" && hasKey item "email") = true
        · rw [if_pos hfields]
          obtain ⟨hun, hem⟩ : hasKey item "username" = true ∧ hasKey item "email" = true := by
            simpa using hfields
          unfold userSafe at hu
          rw [hl] at hu
          dsimp only at hu
          rw [if_pos (by rw [huser, hun, hem]; rfl)] at hu
          cases hle : lookupRec item "email" with
          | none => rw [hle] at hu; simp at hu
          | some ev =>
            rw [hle] at hu
            cases ev with
            | str es =>
              have : validEmailVal (lookupD item "email") = .ok (validateEmail es) := by
                unfold lookupD
                rw [hle]
                rfl
              rw [this]
              exact ⟨_, rfl⟩
            | _ => simp at hu
        · rw [if_neg hfields]
          exact ⟨res, rfl⟩
      · rw [if_neg huser]
        by_cases hprod : (strLower s == "product") = true
        · rw [if_pos hprod]
          by_cases hfields : (hasKey item "price" && hasKey item "quantity") = true
          · rw [if_pos hfields]
            obtain ⟨hpk, hqk⟩ : hasKey item "price" = true ∧ hasKey item "quantity" = true := by
              simpa using hfields
            unfold productSafe at hp
            rw [hl] at hp
            dsimp only at hp
            rw [if_pos (by rw [hprod, hpk, hqk]; rfl)] at hp
            obtain ⟨⟨hpn, hqn⟩, hdn⟩ := by
              simpa [Bool.and_eq_true] using hp
            obtain ⟨total, htot, htn⟩ := pyMul_num hpn hqn
            rw [htot]
            dsimp only
            obtain ⟨dv, hdv⟩ := applyDiscount_ok htn hdn
            rw [hdv]
            exact ⟨_, rfl⟩
          · rw [if_neg hfields]
            exact ⟨res, rfl⟩
        · rw [if_neg hprod]
          exact ⟨res, rfl⟩
    | _ => simp at hty

theorem processItem_ok {item : Record} (hs : recordSafe item = true)
    (t : ℤ) (st : ResDict × Cache) :
    ∃ st', processItem t st item = .ok st' := by
  by_cases hk : keepB item = true
  · simp only [recordSafe, Bool.and_eq_true] at hs
    obtain ⟨⟨⟨⟨⟨⟨h1, h2⟩, h3⟩, h4⟩, h5⟩, h6⟩, h7⟩ := hs
    have henr : ∃ pc, enrichResult t item st.2 = .ok pc := by
      unfold enrichResult
      by_cases hcat : (categorizeValue (lookupD item "value") t == "high") = true
      · rw [if_pos hcat]
        exact processHighValue_ok h2 h3 h5 st.2
      · rw [if_neg hcat]
        by_cases hcat2 : (categorizeValue (lookupD item "value") t == "medium") = true
        · rw [if_pos hcat2]
          obtain ⟨r, hr⟩ := processMediumValue_ok h4
          rw [hr]
          exact ⟨(r, st.2), rfl⟩
        · rw [if_neg hcat2]
          exact ⟨_, rfl⟩
    obtain ⟨⟨processed, c'⟩, hpc⟩ := henr
    unfold processItem
    rw [hk]
    dsimp only
    rw [hpc]
    dsimp only
    by_cases hht : hasKey item "type" = true
    · obtain ⟨res2, hres2⟩ := processByType_ok h1 h6 h7 hht
        (resAppend st.1 (tierKey (categorizeValue (lookupD item "value") t)) processed)
      rw [if_pos hht, hres2]
      exact ⟨(res2, c'), rfl⟩
    · rw [if_neg hht]
      exact ⟨_, rfl⟩
  · exact ⟨st, processItem_skip t st item (by simpa using hk)⟩

/-! ## C2: the claimed unconditional totality, corrected -/

/-- C2 counterexample: each of the claim's own example inputs — a
non-string `type`, a non-mapping entry in `tags`, a non-string metadata
key — makes the processing run raise (`AttributeError`), so the run is
not total. -/
theorem processing_total_cex :
    processDataSt [[("value", PyVal.int 1), ("type", PyVal.int 5)]] 10 [] =
      .error .attributeError ∧
    processDataSt [[("value", PyVal.int 100), ("tags", PyVal.list [.int 42])]] 10 [] =
      .error .attributeError ∧
    processDataSt [[("value", PyVal.int 15),
      ("metadata", PyVal.dict [(.int 1, .int 2)])]] 10 [] =
      .error .attributeError :=
  ⟨by rfl, by rfl, by rfl⟩

/-- C2 amended: the processing run (tier classification, the three
enrichers and kind-based side aggregation) raises no exception on every
input whose records satisfy the `recordSafe` hygiene conditions, for
every threshold and cache state. -/
theorem processing_total_amended (d : List Record) (t : ℤ) (c : Cache)
    (hs : d.all recordSafe = true) :
    ∃ out, processDataSt d t c = .ok out := by
  suffices h : ∀ st : ResDict × Cache,
      ∃ out, d.foldlM (processItem t) st = .ok out from h (initRes, c)
  clear c
  induction d with
  | nil => intro st; exact ⟨st, rfl⟩
  | cons i d' ih =>
    simp only [List.all_cons, Bool.and_eq_true] at hs
    intro st
    obtain ⟨st1, hst1⟩ := processItem_ok hs.1 t st
    obtain ⟨out, hout⟩ := ih hs.2 st1
    rw [List.foldlM_cons, hst1, except_bind_ok, hout]
    exact ⟨out, rfl⟩

/-- Witness for `processing_total_amended`. -/
theorem processing_total_amended_witness :
    ([[("value", PyVal.int 15), ("type", PyVal.str "user")]] :
      List Record).all recordSafe = true ∧
    ∃ out, processDataSt [[("value", PyVal.int 15), ("type", PyVal.str "user")]]
      10 [] = .ok out :=
  ⟨by rfl, processing_total_amended _ 10 [] (by rfl)⟩

/-! ## Cache irrelevance: results on good caches match the cache-free
reference run -/

theorem except_map_ok {α β : Type} (a : α) (f : α → β) :
    (Except.ok a : Except PyErr α).map f = .ok (f a) := rfl

theorem except_map_error {α β : Type} (e : PyErr) (f : α → β) :
    (Except.error e : Except PyErr α).map f = .error e := rfl

theorem valuePhase_char (item r : Record) {c : Cache} (hg : goodCacheB c = true) :
    ∃ c', goodCacheB c' = true ∧
      valuePhase item r c = (valueResult item r).map (fun x => (x, c')) := by
  unfold valuePhase valueResult
  cases hl : lookupRec item "value" with
  | none => exact ⟨c, hg, rfl⟩
  | some v =>
    dsimp only
    by_cases hn : isNumeric v = true
    · rw [if_pos hn, if_pos hn]
      cases hia : intAbsOf v with
      | error e => exact ⟨c, hg, rfl⟩
      | ok n =>
        obtain ⟨c1, hcf, hg1⟩ := calculateFactorial_good (n % 10) c hg
        refine ⟨c1, hg1, ?_⟩
        dsimp only
        rw [hcf]
        rfl
    · rw [if_neg hn, if_neg hn]
      exact ⟨c, hg, rfl⟩

theorem processHighValue_char (item : Record) {c : Cache}
    (hg : goodCacheB c = true) :
    ∃ c', goodCacheB c' = true ∧
      processHighValue item c = (highResult item).map (fun x => (x, c')) := by
  unfold processHighValue highResult
  cases htags : tagsResult item with
  | error e => exact ⟨c, hg, rfl⟩
  | ok r1 => exact valuePhase_char item (descPhase item r1) hg

theorem enrichResult_char (t : ℤ) (item : Record) {c : Cache}
    (hg : goodCacheB c = true) :
    ∃ c', goodCacheB c' = true ∧
      enrichResult t item c = (enrichResultP t item).map (fun x => (x, c')) := by
  unfold enrichResult enrichResultP
  by_cases h1 : (categorizeValue (lookupD item "value") t == "high") = true
  · rw [if_pos h1, if_pos h1]
    exact processHighValue_char item hg
  · rw [if_neg h1, if_neg h1]
    by_cases h2 : (categorizeValue (lookupD item "value") t == "medium") = true
    · rw [if_pos h2, if_pos h2]
      cases hm : processMediumValue item with
      | error e => exact ⟨c, hg, rfl⟩
      | ok r => exact ⟨c, hg, rfl⟩
    · rw [if_neg h2, if_neg h2]
      exact ⟨c, hg, rfl⟩

theorem processItem_char (t : ℤ) (item : Record) (res : ResDict) {c : Cache}
    (hg : goodCacheB c = true) :
    ∃ c', goodCacheB c' = true ∧
      processItem t (res, c) item = (itemResult t res item).map (fun r2 => (r2, c')) := by
  by_cases hk : keepB item = true
  · obtain ⟨c', hg', heq⟩ := enrichResult_char t item hg
    refine ⟨c', hg', ?_⟩
    unfold processItem itemResult
    rw [hk]
    dsimp only
    rw [heq]
    cases hep : enrichResultP t item with
    | error e => rfl
    | ok processed =>
      rw [except_map_ok]
      dsimp only
      cases hbt : (if hasKey item "type" = true then
          processByType item
            (resAppend res (tierKey (categorizeValue (lookupD item "value") t)) processed)
        else .ok (resAppend res (tierKey (categorizeValue (lookupD item "value") t))
          processed)) with
      | error e => rfl
      | ok res2 => rfl
  · have hk' : keepB item = false := by simpa using hk
    refine ⟨c, hg, ?_⟩
    rw [processItem_skip t (res, c) item hk']
    unfold itemResult
    rw [hk']
    rfl

theorem processRun_char (t : ℤ) (d : List Record) :
    ∀ (res : ResDict) (c : Cache), goodCacheB c = true →
    ∃ c', goodCacheB c' = true ∧
      d.foldlM (processItem t) (res, c) =
        (d.foldlM (itemResult t) res).map (fun r => (r, c')) := by
  induction d with
  | nil => intro res c hg; exact ⟨c, hg, rfl⟩
  | cons i d' ih =>
    intro res c hg
    obtain ⟨c1, hg1, heq1⟩ := processItem_char t i res hg
    rw [List.foldlM_cons, List.foldlM_cons, heq1]
    cases hir : itemResult t res i with
    | error e => exact ⟨c1, hg1, rfl⟩
    | ok res1 =>
      obtain ⟨c', hg', heq'⟩ := ih res1 c1 hg1
      rw [except_map_ok, except_bind_ok, except_bind_ok, heq']
      exact ⟨c', hg', rfl⟩

/-! ## Rerun equality of the result dict -/

/-- Helper for the rerun half of C4: if a `process_data` run from the
pristine instance state returns a result and leaves cache `cF`, running
it again on the same input value and threshold with that cache returns
the very same result dict (the cache never changes the output). -/
theorem processData_rerun (d : List Record) (t : ℤ) (res : ResDict) (cF : Cache)
    (h : processDataSt d t [] = .ok (res, cF)) :
    ∃ c'', processDataSt d t cF = .ok (res, c'') := by
  obtain ⟨c1, hg1, heq1⟩ := processRun_char t d initRes [] rfl
  unfold processDataSt at h
  rw [heq1] at h
  cases hrr : d.foldlM (itemResult t) initRes with
  | error e => rw [hrr] at h; exact absurd h (by simp [except_map_error])
  | ok r =>
    rw [hrr, except_map_ok] at h
    have hr : r = res := by
      have := h
      simp only [Except.ok.injEq, Prod.mk.injEq] at this
      exact this.1
    have hc : c1 = cF := by
      simp only [Except.ok.injEq, Prod.mk.injEq] at h
      exact h.2
    subst hr hc
    obtain ⟨c2, hg2, heq2⟩ := processRun_char t d initRes c1 hg1
    refine ⟨c2, ?_⟩
    unfold processDataSt
    rw [heq2, hrr, except_map_ok]

/-! ## C4: input mutation through the aliased categories set -/

theorem foldWb_proj (t : ℤ) (d : List Record) :
    ∀ (st : ResDict × Cache) (acc : List Record) (st' : ResDict × Cache)
      (acc' : List Record),
      d.foldlM (processItemWb t) (st, acc) = .ok (st', acc') →
      d.foldlM (processItem t) st = .ok st' := by
  induction d with
  | nil =>
    intro st acc st' acc' h
    obtain ⟨h4, -⟩ : st = st' ∧ acc = acc' := by
      have h3 : (Except.ok (st, acc) :
          Except PyErr ((ResDict × Cache) × List Record)) = .ok (st', acc') := h
      simpa [Prod.ext_iff] using h3
    subst h4
    rfl
  | cons i d' ih =>
    intro st acc st' acc' h
    rw [List.foldlM_cons] at h ⊢
    unfold processItemWb at h
    cases hpi : processItem t st i with
    | error e =>
      rw [hpi] at h
      exact Except.noConfusion
        (show (Except.error e : Except PyErr ((ResDict × Cache) × List Record)) =
          _ from h)
    | ok st1 =>
      rw [hpi] at h
      rw [except_bind_ok]
      exact ih st1 (acc ++ [itemAfter t i st.2]) st' acc' h

/-- Every post-run record state is either the unchanged input record or
the input record with a pre-existing `categories` set overwritten by the
collected categories set. -/
theorem itemAfter_rel (t : ℤ) (item : Record) (c : Cache) :
    itemAfter t item c = item ∨
      ((∃ s, lookupRec item "categories" = some (.set s)) ∧
        ∃ s', itemAfter t item c = recUpd item "categories" (.set s')) := by
  unfold itemAfter
  by_cases hk : (!keepB item) = true
  · rw [if_pos hk]
    exact Or.inl rfl
  · rw [if_neg hk]
    by_cases hc : (categorizeValue (lookupD item "value") t == "high") = true
    · rw [if_pos hc]
      cases hph : processHighValue item c with
      | error e => exact Or.inl rfl
      | ok rc =>
        obtain ⟨result, c'⟩ := rc
        dsimp only
        unfold writeBackHigh
        cases hl : lookupRec item "categories" with
        | none => exact Or.inl rfl
        | some v =>
          cases v with
          | set s =>
            dsimp only
            cases hr : lookupRec result "categories" with
            | none => exact Or.inl rfl
            | some w =>
              cases w with
              | set s' => exact Or.inr ⟨⟨s, rfl⟩, ⟨s', rfl⟩⟩
              | int n => exact Or.inl rfl
              | float f => exact Or.inl rfl
              | bool b => exact Or.inl rfl
              | str u => exact Or.inl rfl
              | list l => exact Or.inl rfl
              | dict kv => exact Or.inl rfl
              | none => exact Or.inl rfl
          | int n => exact Or.inl rfl
          | float f => exact Or.inl rfl
          | bool b => exact Or.inl rfl
          | str u => exact Or.inl rfl
          | list l => exact Or.inl rfl
          | dict kv => exact Or.inl rfl
          | none => exact Or.inl rfl
    · rw [if_neg hc]
      exact Or.inl rfl

theorem foldWb_after (t : ℤ) (d : List Record) :
    ∀ (st : ResDict × Cache) (acc : List Record) (st' : ResDict × Cache)
      (acc' : List Record),
      d.foldlM (processItemWb t) (st, acc) = .ok (st', acc') →
      ∃ ds, acc' = acc ++ ds ∧
        List.Forall₂ (fun i i' => i' = i ∨
          ((∃ s, lookupRec i "categories" = some (.set s)) ∧
            ∃ s', i' = recUpd i "categories" (.set s'))) d ds := by
  induction d with
  | nil =>
    intro st acc st' acc' h
    obtain ⟨-, h2⟩ : st = st' ∧ acc = acc' := by
      have h3 : (Except.ok (st, acc) :
          Except PyErr ((ResDict × Cache) × List Record)) = .ok (st', acc') := h
      simpa [Prod.ext_iff] using h3
    exact ⟨[], by simp [h2], List.Forall₂.nil⟩
  | cons i d' ih =>
    intro st acc st' acc' h
    rw [List.foldlM_cons] at h
    unfold processItemWb at h
    cases hpi : processItem t st i with
    | error e =>
      rw [hpi] at h
      exact Except.noConfusion
        (show (Except.error e : Except PyErr ((ResDict × Cache) × List Record)) =
          _ from h)
    | ok st1 =>
      rw [hpi] at h
      obtain ⟨ds, hacc, hrel⟩ := ih st1 (acc ++ [itemAfter t i st.2]) st' acc' h
      refine ⟨itemAfter t i st.2 :: ds, ?_,
        List.Forall₂.cons (itemAfter_rel t i st.2) hrel⟩
      rw [hacc]
      simp

theorem processDataWb_proj {d : List Record} {t : ℤ} {c : Cache} {res : ResDict}
    {d' : List Record} {cF : Cache}
    (h : processDataWb d t c = .ok (res, d', cF)) :
    processDataSt d t c = .ok (res, cF) := by
  unfold processDataWb at h
  cases hf : d.foldlM (processItemWb t) ((initRes, c), []) with
  | error e =>
    rw [hf] at h
    exact Except.noConfusion
      (show (Except.error e : Except PyErr (ResDict × List Record × Cache)) = _ from h)
  | ok p =>
    obtain ⟨⟨res0, c0⟩, acc0⟩ := p
    rw [hf] at h
    dsimp only at h
    obtain ⟨h1, -, h3⟩ : res0 = res ∧ acc0 = d' ∧ c0 = cF := by
      have h4 : (Except.ok (res0, acc0, c0) :
          Except PyErr (ResDict × List Record × Cache)) = .ok (res, d', cF) := h
      simpa [Prod.ext_iff] using h4
    rw [← h1, ← h3]
    exact foldWb_proj t d (initRes, c) [] (res0, c0) acc0 hf

theorem processDataWb_after {d : List Record} {t : ℤ} {c : Cache} {res : ResDict}
    {d' : List Record} {cF : Cache}
    (h : processDataWb d t c = .ok (res, d', cF)) :
    List.Forall₂ (fun i i' => i' = i ∨
      ((∃ s, lookupRec i "categories" = some (.set s)) ∧
        ∃ s', i' = recUpd i "categories" (.set s'))) d d' := by
  unfold processDataWb at h
  cases hf : d.foldlM (processItemWb t) ((initRes, c), []) with
  | error e =>
    rw [hf] at h
    exact Except.noConfusion
      (show (Except.error e : Except PyErr (ResDict × List Record × Cache)) = _ from h)
  | ok p =>
    obtain ⟨⟨res0, c0⟩, acc0⟩ := p
    rw [hf] at h
    dsimp only at h
    obtain ⟨-, h2, -⟩ : res0 = res ∧ acc0 = d' ∧ c0 = cF := by
      have h4 : (Except.ok (res0, acc0, c0) :
          Except PyErr (ResDict × List Record × Cache)) = .ok (res, d', cF) := h
      simpa [Prod.ext_iff] using h4
    subst h2
    obtain ⟨ds, hds, hrel⟩ := foldWb_after t d (initRes, c) [] (res0, c0) acc0 hf
    rw [hds]
    simpa using hrel

/-- C4 counterexample: a successful run mutates its input.  The record
carries a pre-existing `categories` set; `item.copy()` in
`_process_high_value` is a shallow copy, so
`result.setdefault('categories', set())` returns that very set object
and `.add('tech')` mutates it in place — the input sequence after the
run (the middle component) differs from the input sequence, refuting
the claim's no-input-mutation conjunct. -/
theorem processData_mutation_cex :
    processDataWb
      [[("value", PyVal.int 25),
        ("tags", PyVal.list [.dict [(.str "category", .str "tech")]]),
        ("categories", PyVal.set [])]] 10 [] =
      .ok ([("high", RVal.recs
          [[("value", PyVal.int 25),
            ("tags", PyVal.list [.dict [(.str "category", .str "tech")]]),
            ("categories", PyVal.set [.str "tech"]),
            ("tag_count", PyVal.int 1),
            ("has_priority", PyVal.bool false),
            ("factorial", PyVal.int 120)]]),
        ("medium", RVal.recs []), ("low", RVal.recs [])],
        [[("value", PyVal.int 25),
          ("tags", PyVal.list [.dict [(.str "category", .str "tech")]]),
          ("categories", PyVal.set [.str "tech"])]],
        [(1, 1), (2, 2), (3, 6), (4, 24), (5, 120)]) ∧
    ([("value", PyVal.int 25),
      ("tags", PyVal.list [.dict [(.str "category", .str "tech")]]),
      ("categories", PyVal.set [.str "tech"])] : Record) ≠
    [("value", PyVal.int 25),
      ("tags", PyVal.list [.dict [(.str "category", .str "tech")]]),
      ("categories", PyVal.set [])] := by
  refine ⟨by rfl, ?_⟩
  intro heq
  have e1 : lookupRec
      [("value", PyVal.int 25),
        ("tags", PyVal.list [.dict [(.str "category", .str "tech")]]),
        ("categories", PyVal.set [.str "tech"])] "categories" =
      some (PyVal.set [.str "tech"]) := by rfl
  have e0 : lookupRec
      [("value", PyVal.int 25),
        ("tags", PyVal.list [.dict [(.str "category", .str "tech")]]),
        ("categories", PyVal.set [])] "categories" =
      some (PyVal.set []) := by rfl
  rw [heq, e0] at e1
  injection e1 with e2
  injection e2 with e3
  cases e3

/-- C4 amended: rerunning the orchestration on the same input and
threshold with the instance state (the factorial cache) the first run
left yields the identical AggregationResult; but a run is not
mutation-free — the input sequence after a run differs from the input in
exactly one way: a processed record whose pre-existing `categories`
field is a set has that set overwritten in place (with the collected tag
categories, through the shallow-copy aliasing); every other record is
returned unchanged. -/
theorem processData_mutation_amended (d : List Record) (t : ℤ) (res : ResDict)
    (d' : List Record) (cF : Cache)
    (h : processDataWb d t [] = .ok (res, d', cF)) :
    (∃ c'', processDataSt d t cF = .ok (res, c'')) ∧
    List.Forall₂ (fun i i' => i' = i ∨
      ((∃ s, lookupRec i "categories" = some (.set s)) ∧
        ∃ s', i' = recUpd i "categories" (.set s'))) d d' :=
  ⟨processData_rerun d t res cF (processDataWb_proj h), processDataWb_after h⟩

/-- Witness for `processData_mutation_amended` at the mutating input. -/
theorem processData_mutation_amended_witness :
    (∃ c'', processDataSt
      [[("value", PyVal.int 25),
        ("tags", PyVal.list [.dict [(.str "category", .str "tech")]]),
        ("categories", PyVal.set [])]] 10
      [(1, 1), (2, 2), (3, 6), (4, 24), (5, 120)] =
      .ok ([("high", RVal.recs
          [[("value", PyVal.int 25),
            ("tags", PyVal.list [.dict [(.str "category", .str "tech")]]),
            ("categories", PyVal.set [.str "tech"]),
            ("tag_count", PyVal.int 1),
            ("has_priority", PyVal.bool false),
            ("factorial", PyVal.int 120)]]),
        ("medium", RVal.recs []), ("low", RVal.recs [])], c'')) ∧
    List.Forall₂ (fun i i' => i' = i ∨
      ((∃ s, lookupRec i "categories" = some (.set s)) ∧
        ∃ s', i' = recUpd i "categories" (.set s')))
      [[("value", PyVal.int 25),
        ("tags", PyVal.list [.dict [(.str "category", .str "tech")]]),
        ("categories", PyVal.set [])]]
      [[("value", PyVal.int 25),
        ("tags", PyVal.list [.dict [(.str "category", .str "tech")]]),
        ("categories", PyVal.set [.str "tech"])]] :=
  processData_mutation_amended
    [[("value", PyVal.int 25),
      ("tags", PyVal.list [.dict [(.str "category", .str "tech")]]),
      ("categories", PyVal.set [])]] 10
    [("high", RVal.recs
        [[("value", PyVal.int 25),
          ("tags", PyVal.list [.dict [(.str "category", .str "tech")]]),
          ("categories", PyVal.set [.str "tech"]),
          ("tag_count", PyVal.int 1),
          ("has_priority", PyVal.bool false),
          ("factorial", PyVal.int 120)]]),
      ("medium", RVal.recs []), ("low", RVal.recs [])]
    [[("value", PyVal.int 25),
      ("tags", PyVal.list [.dict [(.str "category", .str "tech")]]),
      ("categories", PyVal.set [.str "tech"])]]
    [(1, 1), (2, 2), (3, 6), (4, 24), (5, 120)] (by rfl)

/-! ## Bucket lemmas -/

theorem resLookup_resAppend_self (res : ResDict) (k : String) (e : Record) :
    resLookup (resAppend res k e) k = some (.recs (bucket res k ++ [e])) := by
  induction res with
  | nil => simp [resAppend, resLookup, bucket]
  | cons kv rest ih =>
    obtain ⟨k', v⟩ := kv
    by_cases hk : k' == k
    · have hk' : k' = k := by simpa using hk
      subst hk'
      cases v with
      | recs l => simp [resAppend, resLookup, bucket]
      | count n => simp [resAppend, resLookup, bucket]
    · simp [resAppend, resLookup, hk, ih, bucket]

theorem bucket_resAppend_self (res : ResDict) (k : String) (e : Record) :
    bucket (resAppend res k e) k = bucket res k ++ [e] := by
  unfold bucket
  rw [resLookup_resAppend_self]
  dsimp only
  rfl

theorem resLookup_resAppend_ne (res : ResDict) (k k' : String) (e : Record)
    (h : k' ≠ k) : resLookup (resAppend res k e) k' = resLookup res k' := by
  have hk : (k == k') = false := beq_eq_false_iff_ne.mpr (Ne.symm h)
  induction res with
  | nil => simp [resAppend, resLookup, hk]
  | cons kv rest ih =>
    obtain ⟨k0, v⟩ := kv
    by_cases h0 : k0 == k
    · have hk0 : k0 = k := by simpa using h0
      subst hk0
      cases v with
      | recs l => simp [resAppend, resLookup, hk]
      | count n => simp [resAppend, resLookup, hk]
    · simp [resAppend, resLookup, h0, ih]

theorem bucket_resAppend_ne (res : ResDict) (k k' : String) (e : Record)
    (h : k' ≠ k) : bucket (resAppend res k e) k' = bucket res k' := by
  unfold bucket
  rw [resLookup_resAppend_ne res k k' e h]

/-- Models `_process_by_type` only ever appends to the `users` or `products`
side collections. -/
theorem byType_shape {item : Record} {res res2 : ResDict}
    (h : processByType item res = .ok res2) :
    res2 = res ∨ (∃ e, res2 = resAppend res "users" e) ∨
      (∃ e, res2 = resAppend res "products" e) := by
  unfold processByType at h
  cases hpl : pyLower (lookupD item "type") with
  | error e => rw [hpl] at h; simp at h
  | ok t =>
    rw [hpl] at h
    dsimp only at h
    by_cases hu : (t == "user") = true
    · rw [if_pos hu] at h
      by_cases hf : (hasKey item "username" && hasKey item "email") = true
      · rw [if_pos hf] at h
        cases hv : validEmailVal (lookupD item "email") with
        | error e => rw [hv] at h; simp at h
        | ok valid =>
          rw [hv] at h
          dsimp only at h
          right; left
          exact ⟨_, by injection h with h'; exact h'.symm⟩
      · rw [if_neg hf] at h
        left
        injection h with h'
        exact h'.symm
    · rw [if_neg hu] at h
      by_cases hp : (t == "product") = true
      · rw [if_pos hp] at h
        by_cases hf : (hasKey item "price" && hasKey item "quantity") = true
        · rw [if_pos hf] at h
          cases hm : pyMul (lookupD item "price") (lookupD item "quantity") with
          | error e => rw [hm] at h; simp at h
          | ok total =>
            rw [hm] at h
            dsimp only at h
            cases hd : applyDiscountPy total (getD item "discount" (.int 0)) with
            | error e => rw [hd] at h; simp at h
            | ok disc =>
              rw [hd] at h
              dsimp only at h
              right; right
              exact ⟨_, by injection h with h'; exact h'.symm⟩
        · rw [if_neg hf] at h
          left
          injection h with h'
          exact h'.symm
      · rw [if_neg hp] at h
        left
        injection h with h'
        exact h'.symm

theorem byType_buckets {item : Record} {res res2 : ResDict}
    (h : processByType item res = .ok res2) :
    bucket res2 "high" = bucket res "high" ∧
    bucket res2 "medium" = bucket res "medium" ∧
    bucket res2 "low" = bucket res "low" := by
  rcases byType_shape h with rfl | ⟨e, rfl⟩ | ⟨e, rfl⟩
  · exact ⟨rfl, rfl, rfl⟩
  · exact ⟨bucket_resAppend_ne _ _ _ _ (by decide),
      bucket_resAppend_ne _ _ _ _ (by decide),
      bucket_resAppend_ne _ _ _ _ (by decide)⟩
  · exact ⟨bucket_resAppend_ne _ _ _ _ (by decide),
      bucket_resAppend_ne _ _ _ _ (by decide),
      bucket_resAppend_ne _ _ _ _ (by decide)⟩

theorem tierKey_cases (s : String) :
    tierKey s = "high" ∨ tierKey s = "medium" ∨ tierKey s = "low" := by
  unfold tierKey
  split_ifs with h1 h2
  · exact Or.inl rfl
  · exact Or.inr (Or.inl rfl)
  · exact Or.inr (Or.inr rfl)

theorem itemResult_skip (t : ℤ) (res : ResDict) (i : Record)
    (h : keepB i = false) : itemResult t res i = .ok res := by
  unfold itemResult
  rw [h]
  rfl

theorem keptTier_cons (t : ℤ) (k : String) (i : Record) (d : List Record) :
    keptTier t k (i :: d) =
      if keepB i && (tierKey (categorizeValue (lookupD i "value") t) == k) then
        i :: keptTier t k d
      else keptTier t k d := by
  unfold keptTier
  by_cases h1 : keepB i = true
  · rw [List.filter_cons, if_pos h1]
    by_cases h2 : (tierKey (categorizeValue (lookupD i "value") t) == k) = true
    · rw [List.filter_cons, if_pos h2, if_pos (by simp [h1, h2])]
    · rw [List.filter_cons, if_neg h2, if_neg (by
        rw [h1]
        simpa using h2)]
  · have h1' : keepB i = false := by simpa using h1
    rw [List.filter_cons, if_neg (by simp [h1']), if_neg (by simp [h1'])]

theorem filter_three_length (l : List Record) (f : Record → String)
    (hf : ∀ i, f i = "high" ∨ f i = "medium" ∨ f i = "low") :
    (l.filter (fun i => f i == "high")).length +
      (l.filter (fun i => f i == "medium")).length +
      (l.filter (fun i => f i == "low")).length = l.length := by
  induction l with
  | nil => rfl
  | cons i l ih =>
    rcases hf i with h | h | h <;> simp [List.filter_cons, h] <;> omega

/-! ## The C9 tier partition -/

theorem runResult_buckets (t : ℤ) (d : List Record) :
    ∀ res resF : ResDict, d.foldlM (itemResult t) res = .ok resF →
    ∃ hs ms ls,
      bucket resF "high" = bucket res "high" ++ hs ∧
      bucket resF "medium" = bucket res "medium" ++ ms ∧
      bucket resF "low" = bucket res "low" ++ ls ∧
      List.Forall₂ (fun i e => highResult i = .ok e) (keptTier t "high" d) hs ∧
      List.Forall₂ (fun i e => processMediumValue i = .ok e) (keptTier t "medium" d) ms ∧
      List.Forall₂ (fun i e => processLowValue i = e) (keptTier t "low" d) ls := by
  induction d with
  | nil =>
    intro res resF h
    have hrf : res = resF := by
      have h' : (Except.ok res : Except PyErr ResDict) = .ok resF := h
      injection h'
    subst hrf
    exact ⟨[], [], [], by simp, by simp, by simp,
      List.Forall₂.nil, List.Forall₂.nil, List.Forall₂.nil⟩
  | cons i d' ih =>
    intro res resF h
    rw [List.foldlM_cons] at h
    by_cases hk : keepB i = true
    · unfold itemResult at h
      rw [hk] at h
      dsimp only at h
      cases hep : enrichResultP t i with
      | error e =>
        rw [hep] at h
        exact Except.noConfusion
          (show (Except.error e : Except PyErr ResDict) = .ok resF from h)
      | ok processed =>
        rw [hep] at h
        dsimp only at h
        have hmain : ∀ res2 : ResDict,
            d'.foldlM (itemResult t) res2 = .ok resF →
            bucket res2 "high" =
              bucket (resAppend res (tierKey (categorizeValue (lookupD i "value") t))
                processed) "high" →
            bucket res2 "medium" =
              bucket (resAppend res (tierKey (categorizeValue (lookupD i "value") t))
                processed) "medium" →
            bucket res2 "low" =
              bucket (resAppend res (tierKey (categorizeValue (lookupD i "value") t))
                processed) "low" →
            ∃ hs ms ls,
              bucket resF "high" = bucket res "high" ++ hs ∧
              bucket resF "medium" = bucket res "medium" ++ ms ∧
              bucket resF "low" = bucket res "low" ++ ls ∧
              List.Forall₂ (fun i e => highResult i = .ok e) (keptTier t "high" (i :: d')) hs ∧
              List.Forall₂ (fun i e => processMediumValue i = .ok e)
                (keptTier t "medium" (i :: d')) ms ∧
              List.Forall₂ (fun i e => processLowValue i = e)
                (keptTier t "low" (i :: d')) ls := by
          intro res2 hfold hb1 hb2 hb3
          obtain ⟨hs', ms', ls', g1, g2, g3, q1, q2, q3⟩ := ih res2 resF hfold
          by_cases hch : (categorizeValue (lookupD i "value") t == "high") = true
          · have htk : tierKey (categorizeValue (lookupD i "value") t) = "high" := by
              unfold tierKey
              rw [if_pos hch]
            have hrel : highResult i = .ok processed := by
              unfold enrichResultP at hep
              rw [if_pos hch] at hep
              exact hep
            refine ⟨processed :: hs', ms', ls', ?_, ?_, ?_, ?_, ?_, ?_⟩
            · rw [g1, hb1, htk, bucket_resAppend_self]
              simp
            · rw [g2, hb2, htk, bucket_resAppend_ne _ _ _ _ (by decide)]
            · rw [g3, hb3, htk, bucket_resAppend_ne _ _ _ _ (by decide)]
            · rw [keptTier_cons, if_pos (by rw [hk, htk]; rfl)]
              exact List.Forall₂.cons hrel q1
            · rw [keptTier_cons, if_neg (by rw [hk, htk]; simp)]
              exact q2
            · rw [keptTier_cons, if_neg (by rw [hk, htk]; simp)]
              exact q3
          · by_cases hcm : (categorizeValue (lookupD i "value") t == "medium") = true
            · have htk : tierKey (categorizeValue (lookupD i "value") t) = "medium" := by
                unfold tierKey
                rw [if_neg hch, if_pos hcm]
              have hrel : processMediumValue i = .ok processed := by
                unfold enrichResultP at hep
                rw [if_neg hch, if_pos hcm] at hep
                exact hep
              refine ⟨hs', processed :: ms', ls', ?_, ?_, ?_, ?_, ?_, ?_⟩
              · rw [g1, hb1, htk, bucket_resAppend_ne _ _ _ _ (by decide)]
              · rw [g2, hb2, htk, bucket_resAppend_self]
                simp
              · rw [g3, hb3, htk, bucket_resAppend_ne _ _ _ _ (by decide)]
              · rw [keptTier_cons, if_neg (by rw [hk, htk]; simp)]
                exact q1
              · rw [keptTier_cons, if_pos (by rw [hk, htk]; rfl)]
                exact List.Forall₂.cons hrel q2
              · rw [keptTier_cons, if_neg (by rw [hk, htk]; simp)]
                exact q3
            · have htk : tierKey (categorizeValue (lookupD i "value") t) = "low" := by
                unfold tierKey
                rw [if_neg hch, if_neg hcm]
              have hrel : processLowValue i = processed := by
                unfold enrichResultP at hep
                rw [if_neg hch, if_neg hcm] at hep
                simpa using hep
              refine ⟨hs', ms', processed :: ls', ?_, ?_, ?_, ?_, ?_, ?_⟩
              · rw [g1, hb1, htk, bucket_resAppend_ne _ _ _ _ (by decide)]
              · rw [g2, hb2, htk, bucket_resAppend_ne _ _ _ _ (by decide)]
              · rw [g3, hb3, htk, bucket_resAppend_self]
                simp
              · rw [keptTier_cons, if_neg (by rw [hk, htk]; simp)]
                exact q1
              · rw [keptTier_cons, if_neg (by rw [hk, htk]; simp)]
                exact q2
              · rw [keptTier_cons, if_pos (by rw [hk, htk]; rfl)]
                exact List.Forall₂.cons hrel q3
        by_cases hht : hasKey i "type" = true
        · rw [if_pos hht] at h
          cases hbt : processByType i
              (resAppend res (tierKey (categorizeValue (lookupD i "value") t))
                processed) with
          | error e =>
            rw [hbt] at h
            exact Except.noConfusion
              (show (Except.error e : Except PyErr ResDict) = .ok resF from h)
          | ok res2 =>
            rw [hbt] at h
            obtain ⟨hb1, hb2, hb3⟩ := byType_buckets hbt
            exact hmain res2 h hb1 hb2 hb3
        · rw [if_neg hht] at h
          exact hmain _ h rfl rfl rfl
    · have hk' : keepB i = false := by simpa using hk
      rw [itemResult_skip t res i hk'] at h
      obtain ⟨hs, ms, ls, g1, g2, g3, q1, q2, q3⟩ := ih res resF h
      refine ⟨hs, ms, ls, g1, g2, g3, ?_, ?_, ?_⟩ <;>
        rw [keptTier_cons, if_neg (by simp [hk'])] <;> assumption

/-- C9: on every run on which `process_data` succeeds, the tier buckets
are, in input order, exactly the enrichments of the kept records (those
that are nonempty and carry `value`) whose category maps to the bucket,
each kept record landing in exactly one bucket; hence the three bucket
sizes (the counts the orchestration derives) sum to the number of kept
records. -/
theorem tier_partition_spec (d : List Record) (t : ℤ) (res : ResDict) (cF : Cache)
    (h : processDataSt d t [] = .ok (res, cF)) :
    List.Forall₂ (fun i e => highResult i = .ok e) (keptTier t "high" d)
      (bucket res "high") ∧
    List.Forall₂ (fun i e => processMediumValue i = .ok e) (keptTier t "medium" d)
      (bucket res "medium") ∧
    List.Forall₂ (fun i e => processLowValue i = e) (keptTier t "low" d)
      (bucket res "low") ∧
    (bucket res "high").length + (bucket res "medium").length +
      (bucket res "low").length = (d.filter keepB).length := by
  obtain ⟨c1, hg1, heq⟩ := processRun_char t d initRes [] rfl
  unfold processDataSt at h
  rw [heq] at h
  cases hrr : d.foldlM (itemResult t) initRes with
  | error e => rw [hrr] at h; simp [except_map_error] at h
  | ok r =>
    rw [hrr, except_map_ok] at h
    obtain ⟨hrv, -⟩ : r = res ∧ c1 = cF := by simpa using h
    subst hrv
    obtain ⟨hs, ms, ls, g1, g2, g3, q1, q2, q3⟩ := runResult_buckets t d initRes r hrr
    have e1 : bucket r "high" = hs := by simpa using g1
    have e2 : bucket r "medium" = ms := by simpa using g2
    have e3 : bucket r "low" = ls := by simpa using g3
    refine ⟨e1 ▸ q1, e2 ▸ q2, e3 ▸ q3, ?_⟩
    rw [e1, e2, e3, ← List.Forall₂.length_eq q1, ← List.Forall₂.length_eq q2,
      ← List.Forall₂.length_eq q3]
    exact filter_three_length (d.filter keepB)
      (fun i => tierKey (categorizeValue (lookupD i "value") t))
      (fun i => tierKey_cases _)

/-- Witness for `tier_partition_spec` at a single high record. -/
theorem tier_partition_spec_witness :
    List.Forall₂ (fun i e => highResult i = .ok e)
      (keptTier 10 "high" [[("value", PyVal.int 25)]])
      (bucket [("high", RVal.recs [[("value", PyVal.int 25), ("factorial", PyVal.int 120)]]),
        ("medium", RVal.recs []), ("low", RVal.recs [])] "high") ∧
    List.Forall₂ (fun i e => processMediumValue i = .ok e)
      (keptTier 10 "medium" [[("value", PyVal.int 25)]])
      (bucket [("high", RVal.recs [[("value", PyVal.int 25), ("factorial", PyVal.int 120)]]),
        ("medium", RVal.recs []), ("low", RVal.recs [])] "medium") ∧
    List.Forall₂ (fun i e => processLowValue i = e)
      (keptTier 10 "low" [[("value", PyVal.int 25)]])
      (bucket [("high", RVal.recs [[("value", PyVal.int 25), ("factorial", PyVal.int 120)]]),
        ("medium", RVal.recs []), ("low", RVal.recs [])] "low") ∧
    (bucket [("high", RVal.recs [[("value", PyVal.int 25), ("factorial", PyVal.int 120)]]),
        ("medium", RVal.recs []), ("low", RVal.recs [])] "high").length +
      (bucket [("high", RVal.recs [[("value", PyVal.int 25), ("factorial", PyVal.int 120)]]),
        ("medium", RVal.recs []), ("low", RVal.recs [])] "medium").length +
      (bucket [("high", RVal.recs [[("value", PyVal.int 25), ("factorial", PyVal.int 120)]]),
        ("medium", RVal.recs []), ("low", RVal.recs [])] "low").length =
      ([[("value", PyVal.int 25)]].filter keepB).length :=
  tier_partition_spec [[("value", PyVal.int 25)]] 10
    [("high", RVal.recs [[("value", PyVal.int 25), ("factorial", PyVal.int 120)]]),
      ("medium", RVal.recs []), ("low", RVal.recs [])]
    [(1, 1), (2, 2), (3, 6), (4, 24), (5, 120)] (by rfl)

end ComplexCode
